import Mathlib

/-!
Verification development for the cequihash Equihash solver/validator
(src/cequihash: miner.h, miner.tcc, solver.cpp, basicSolver.c, basicSolver-opt.c).

The C sources are shallowly embedded: machine integers become Nat with
explicit truncation (`% 2 ^ 32`, `% 256`) exactly where the C types wrap,
byte buffers become `List Nat` whose elements are < 256 (the `unsigned char`
type of the source guarantees this; theorems carry the bound as a hypothesis
where a buffer is an input), and the BLAKE2b primitive -- an external
dependency of the repository ("blake2.h" is not part of it) -- is abstracted
as an oracle `Nat → List Nat` mapping a block counter `g` to the HASHOUT
bytes that `blake2b_final` would produce from the midstate for (header,
nonce).  Both the solver and the validator consume the same oracle, which is
exactly the relationship the source establishes through `setheader`.
-/

/-! ### Derived parameter constants (miner.h, TrompEquihash<WN,WK>) -/

/-- miner.h: `RESTBITS = (WN == 200 && WK == 9) ? 10 : 4`. -/
def RESTBITS (WN WK : Nat) : Nat := if WN = 200 ∧ WK = 9 then 10 else 4

/-- miner.h: `CANTOR = (WN == 200 && WK == 9)`. -/
def CANTOR (WN WK : Nat) : Bool := WN = 200 ∧ WK = 9

/-- miner.h: `DIGITBITS = WN / (WK + 1)`. -/
def DIGITBITS (WN WK : Nat) : Nat := WN / (WK + 1)

/-- miner.h: `PROOFSIZE = 1 << WK`. -/
def PROOFSIZE (WK : Nat) : Nat := 2 ^ WK

/-- miner.h: `BASE = 1 << DIGITBITS`. -/
def BASE (WN WK : Nat) : Nat := 2 ^ DIGITBITS WN WK

/-- miner.h: `NHASHES = 2 * BASE`. -/
def NHASHES (WN WK : Nat) : Nat := 2 * BASE WN WK

/-- miner.h: `HASHESPERBLAKE = 512 / WN`. -/
def HASHESPERBLAKE (WN : Nat) : Nat := 512 / WN

/-- miner.h: `HASHOUT = HASHESPERBLAKE * WN / 8`. -/
def HASHOUT (WN : Nat) : Nat := HASHESPERBLAKE WN * WN / 8

/-- miner.h: `BUCKBITS = DIGITBITS - RESTBITS`. -/
def BUCKBITS (WN WK : Nat) : Nat := DIGITBITS WN WK - RESTBITS WN WK

/-- miner.h: `SLOTBITS = RESTBITS + 1 + 1`. -/
def SLOTBITS (WN WK : Nat) : Nat := RESTBITS WN WK + 1 + 1

/-- miner.h: `NBUCKETS = 1 << BUCKBITS`. -/
def NBUCKETS (WN WK : Nat) : Nat := 2 ^ BUCKBITS WN WK

/-- miner.h: `BUCKMASK = NBUCKETS - 1`. -/
def BUCKMASK (WN WK : Nat) : Nat := NBUCKETS WN WK - 1

/-- miner.h: `SLOTRANGE = 1 << SLOTBITS`. -/
def SLOTRANGE (WN WK : Nat) : Nat := 2 ^ SLOTBITS WN WK

/-- miner.h: `SLOTMASK = SLOTRANGE - 1`. -/
def SLOTMASK (WN WK : Nat) : Nat := SLOTRANGE WN WK - 1

/-- miner.h: `NSLOTS = (uint32_t)(SLOTRANGE * SAVEMEM)` where
`SAVEMEM = RESTBITS < 8 ? 1.0 : 9.0f/14.0f`.  For `RESTBITS < 8` this is
`SLOTRANGE`; for `(200,9)` the floating computation truncates
`4096 * (9/14) = 2633.142...` to `2633`, which coincides with the exact
rational floor `SLOTRANGE * 9 / 14` computed in Nat division. -/
def NSLOTS (WN WK : Nat) : Nat :=
  if RESTBITS WN WK < 8 then SLOTRANGE WN WK else SLOTRANGE WN WK * 9 / 14

/-- miner.h: `NRESTS = 1 << RESTBITS`. -/
def NRESTS (WN WK : Nat) : Nat := 2 ^ RESTBITS WN WK

/-- miner.h: `MAXSOLS = 8`. -/
def MAXSOLS : Nat := 8

/-- miner.h: `CANTORBITS = 2 * SLOTBITS - 2` (CANTOR builds only). -/
def CANTORBITS (WN WK : Nat) : Nat := 2 * SLOTBITS WN WK - 2

/-- miner.h: `CANTORMASK = (1 << CANTORBITS) - 1`. -/
def CANTORMASK (WN WK : Nat) : Nat := 2 ^ CANTORBITS WN WK - 1

/-- miner.h: `CANTORMAXSQRT = 2 * NSLOTS`. -/
def CANTORMAXSQRT (WN WK : Nat) : Nat := 2 * NSLOTS WN WK

/-- miner.h: `TREEMINBITS = CANTOR ? BUCKBITS + CANTORBITS : BUCKBITS + 2*SLOTBITS`. -/
def TREEMINBITS (WN WK : Nat) : Nat :=
  if CANTOR WN WK then BUCKBITS WN WK + CANTORBITS WN WK
  else BUCKBITS WN WK + 2 * SLOTBITS WN WK

/-- miner.h: `tree_t` is uint16 when `TREEMINBITS ≤ 16`, else uint32;
`TREEBYTES = sizeof(tree_t)`. -/
def TREEBYTES (WN WK : Nat) : Nat := if TREEMINBITS WN WK ≤ 16 then 2 else 4

/-- miner.h: `TREEBITS = TREEBYTES * 8`. -/
def TREEBITS (WN WK : Nat) : Nat := TREEBYTES WN WK * 8

/-- miner.h: `COMPRESSED_SOL_SIZE = PROOFSIZE * (DIGITBITS + 1) / 8`. -/
def COMPRESSED_SOL_SIZE (WN WK : Nat) : Nat :=
  PROOFSIZE WK * (DIGITBITS WN WK + 1) / 8

/-- miner.h: `HASHWORDS0 = ((WN - DIGITBITS + RESTBITS) + TREEBITS - 1) / TREEBITS`. -/
def HASHWORDS0 (WN WK : Nat) : Nat :=
  (WN - DIGITBITS WN WK + RESTBITS WN WK + TREEBITS WN WK - 1) / TREEBITS WN WK

/-- miner.h: `HASHWORDS1 = ((WN - 2*DIGITBITS + RESTBITS) + TREEBITS - 1) / TREEBITS`. -/
def HASHWORDS1 (WN WK : Nat) : Nat :=
  (WN - 2 * DIGITBITS WN WK + RESTBITS WN WK + TREEBITS WN WK - 1) / TREEBITS WN WK

/-- miner.h: `hashsize(r) = (WN - (r+1)*DIGITBITS + RESTBITS + 7) / 8`. -/
def hashsize (WN WK r : Nat) : Nat :=
  (WN - (r + 1) * DIGITBITS WN WK + RESTBITS WN WK + 7) / 8

/-- miner.h: `hashwords(bytes) = (bytes + TREEBYTES - 1) / TREEBYTES`. -/
def hashwords (WN WK bytes : Nat) : Nat :=
  (bytes + TREEBYTES WN WK - 1) / TREEBYTES WN WK

/-- miner.h: `HEADERNONCELEN = 180`. -/
def HEADERNONCELEN : Nat := 180

/-- miner.h / equihash.h: the verify_code enum, as plain numerals. -/
def POW_OK : Nat := 0

def POW_INVALID_HEADER_LENGTH : Nat := 1

def POW_DUPLICATE : Nat := 2

def POW_OUT_OF_ORDER : Nat := 3

def POW_NONZERO_XOR : Nat := 4

def POW_SOL_SIZE_MISMATCH : Nat := 5

def POW_UNKNOWN_PARAMS : Nat := 6

/-- equihash.h: `equihash_solution_size(N,K) = (1 << K) * (N/(K+1) + 1) / 8`. -/
def equihash_solution_size (N K : Nat) : Nat := 2 ^ K * (N / (K + 1) + 1) / 8

/-! ### Big-endian byte/value helpers -/

/-- Big-endian value of a byte list (each element an `unsigned char`, hence
taken mod 256 exactly as the C type would store it). -/
def bytesVal (l : List Nat) : Nat := l.foldl (fun a b => a * 256 + b % 256) 0

/-- The `w` big-endian bytes of a value `v` (most significant first). -/
def beBytes : Nat → Nat → List Nat
  | 0, _ => []
  | w + 1, v => (v >>> (8 * w)) % 256 :: beBytes w v

/-- solver.cpp `array_to_index` / basicSolver `arrayToEhIndex`:
`be32toh` of four bytes, i.e. the big-endian 32-bit value. -/
def array_to_index (l : List Nat) : Nat :=
  ((l.getD 0 0 % 256 * 256 + l.getD 1 0 % 256) * 256 + l.getD 2 0 % 256) * 256
    + l.getD 3 0 % 256

/-- miner.h `EhIndexToArray` / basicSolver `ehIndexToArray`: `htobe32(i)`
stored as four bytes. -/
def EhIndexToArray (i : Nat) : List Nat := beBytes 4 (i % 2 ^ 32)

/-! ### The bit codec

`expand_array` is the solver.cpp static function (identical to the
`expandArray` in basicSolver.c / basicSolver-opt.c); `CompressArray` is the
miner.h static member (identical to `compressArray` in basicSolver*.c).
Both process a big-endian bit stream through a `uint32` accumulator
`acc_value` holding `acc_bits` pending bits in its low part. -/

/-- The bytes written for one output group of `expand_array`:
`byte_pad` zero bytes followed by the big-endian group bytes, each byte
`(acc_value >> (acc_bits + 8*(out_width-x-1))) & ((bit_len_mask >> (8*(out_width-x-1))) & 0xFF)`. -/
def expandEmit (bitLen bytePad outWidth accBits accValue : Nat) : List Nat :=
  List.replicate bytePad 0 ++
    (List.range (outWidth - bytePad)).map fun d =>
      (accValue >>> (accBits + 8 * (outWidth - (bytePad + d) - 1))) &&&
        (((2 ^ bitLen - 1) >>> (8 * (outWidth - (bytePad + d) - 1))) &&& 255)

/-- The main loop of `expand_array`: one input byte per step is shifted into
the `uint32` accumulator; whenever `bit_len` bits are available a group is
emitted.  `in[i]` has type `unsigned char`, so `(acc_value << 8) | in[i]`
equals `acc_value * 256 + b` before the `uint32` wrap. -/
def expandLoop (bitLen bytePad outWidth : Nat) :
    List Nat → Nat → Nat → List Nat
  | [], _, _ => []
  | b :: rest, accBits, accValue =>
    let av := (accValue * 256 + b % 256) % 2 ^ 32
    let ab := accBits + 8
    if bitLen ≤ ab then
      expandEmit bitLen bytePad outWidth (ab - bitLen) av ++
        expandLoop bitLen bytePad outWidth rest (ab - bitLen) av
    else
      expandLoop bitLen bytePad outWidth rest ab av

/-- solver.cpp `expand_array(in, in_len, out, out_len, bit_len, byte_pad)`;
the output buffer is modelled as the list of bytes written, in order
(`out_width = (bit_len+7)/8 + byte_pad`). -/
def expand_array (input : List Nat) (bitLen bytePad : Nat) : List Nat :=
  expandLoop bitLen bytePad ((bitLen + 7) / 8 + bytePad) input 0 0

/-- The inner read of `CompressArray`: starting from the shifted accumulator,
OR in the masked bytes `in[j+x] & ((bit_len_mask >> (8*(in_width-x-1))) & 0xFF)`
shifted to position `8*(in_width-x-1)`, for `x = byte_pad .. in_width-1`. -/
def compressRead (bitLen bytePad inWidth : Nat) (input : List Nat) (j acc : Nat) : Nat :=
  (List.range (inWidth - bytePad)).foldl
    (fun a d =>
      a ||| ((input.getD (j + (bytePad + d)) 0 % 256 &&&
        (((2 ^ bitLen - 1) >>> (8 * (inWidth - (bytePad + d) - 1))) &&& 255)) <<<
          (8 * (inWidth - (bytePad + d) - 1))))
    acc

/-- The main loop of `CompressArray`: for each of `out_len` output bytes, if
fewer than 8 bits are pending, shift the accumulator left by `bit_len`
(`uint32` wrap) and OR in the next input group; then emit the top pending
byte `(acc_value >> acc_bits) & 0xFF`. -/
def compressLoop (bitLen bytePad inWidth : Nat) (input : List Nat) :
    Nat → Nat → Nat → Nat → List Nat
  | 0, _, _, _ => []
  | n + 1, j, accBits, accValue =>
    if accBits < 8 then
      let av := compressRead bitLen bytePad inWidth input j
        ((accValue <<< bitLen) % 2 ^ 32)
      let ab := accBits + bitLen - 8
      ((av >>> ab) &&& 255) ::
        compressLoop bitLen bytePad inWidth input n (j + inWidth) ab av
    else
      ((accValue >>> (accBits - 8)) &&& 255) ::
        compressLoop bitLen bytePad inWidth input n j (accBits - 8) accValue

/-- miner.h `CompressArray(in, in_len, out, out_len, bit_len, byte_pad)`;
the output buffer is modelled as the list of `out_len` bytes written. -/
def CompressArray (input : List Nat) (outLen bitLen bytePad : Nat) : List Nat :=
  compressLoop bitLen bytePad ((bitLen + 7) / 8 + bytePad) input outLen 0 0 0

/-- miner.h `GetMinimalFromIndices(indices, indices_len)` with
`cBitLen = WN/(WK+1)`: each index is laid out as 4 big-endian bytes and the
result is `CompressArray` with `bit_len = cBitLen+1`,
`byte_pad = 4 - ((cBitLen+1)+7)/8`, `out_len = (cBitLen+1)*4*len/32`. -/
def GetMinimalFromIndices (cBitLen : Nat) (indices : List Nat) : List Nat :=
  let lenIndices := indices.length * 4
  let minLen := (cBitLen + 1) * lenIndices / 32
  let bytePad := 4 - ((cBitLen + 1) + 7) / 8
  CompressArray ((indices.map EhIndexToArray).flatten) minLen (cBitLen + 1) bytePad

/-- solver.cpp `to_indices(minimal, sol_size, cBitLen)`: expand the minimal
encoding with `bit_len = cBitLen+1`, then reinterpret the (zero-initialised)
`lenIndices`-byte vector as big-endian 4-byte indices.  `expand_array` reads
exactly `sol_size` input bytes. -/
def to_indices (minimal : List Nat) (solSize cBitLen : Nat) : List Nat :=
  let lenIndices := 32 * solSize / (cBitLen + 1)
  let bytePad := 4 - ((cBitLen + 1) + 7) / 8
  let arr := expand_array (minimal.take solSize) (cBitLen + 1) bytePad
  let arr := arr ++ List.replicate (lenIndices - arr.length) 0
  (List.range ((lenIndices + 3) / 4)).map fun i => array_to_index (arr.drop (4 * i))

/-! ### The validator (miner.h genhash / verifyrec / duped / verify) -/

/-- miner.h `genhash(ctx, idx, hash)` under the BLAKE2b oracle: the
`WN/8`-byte slice of the blake block `idx / HASHESPERBLAKE` starting at
byte `(idx % HASHESPERBLAKE) * WN / 8`. -/
def genhashM (WN : Nat) (oracle : Nat → List Nat) (idx : Nat) : List Nat :=
  ((oracle (idx / HASHESPERBLAKE WN)).drop
    (idx % HASHESPERBLAKE WN * WN / 8)).take (WN / 8)

/-- miner.h `verifyrec(ctx, indices, hash, r)`: the result code together
with the hash written through the out-parameter.  The source leaves the
buffer unspecified on a failing return (the caller never reads it then);
the model returns `[]` in those cases. -/
def verifyrecM (WN WK : Nat) (oracle : Nat → List Nat) :
    List Nat → Nat → Nat × List Nat
  | indices, 0 => (POW_OK, genhashM WN oracle (indices.getD 0 0))
  | indices, r + 1 =>
    if indices.getD (2 ^ r) 0 ≤ indices.getD 0 0 then (POW_OUT_OF_ORDER, [])
    else
      let v0 := verifyrecM WN WK oracle indices r
      if v0.1 ≠ POW_OK then (v0.1, [])
      else
        let v1 := verifyrecM WN WK oracle (indices.drop (2 ^ r)) r
        if v1.1 ≠ POW_OK then (v1.1, [])
        else
          let h := List.zipWith (fun a b => a ^^^ b) v0.2 v1.2
          let b := if r + 1 < WK then (r + 1) * DIGITBITS WN WK else WN
          if (List.range (b / 8)).any (fun i => h.getD i 0 != 0) then
            (POW_NONZERO_XOR, [])
          else if b % 8 ≠ 0 ∧ h.getD (b / 8) 0 >>> (8 - b % 8) ≠ 0 then
            (POW_NONZERO_XOR, [])
          else (POW_OK, h)

/-- miner.h `duped(prf)`: sort a private copy of the `PROOFSIZE` indices
(`std::sort`, modelled by `insertionSort`), then report any out-of-range
entry or non-strictly-ascending adjacent pair. -/
def dupedM (WN WK : Nat) (prf : List Nat) : Bool :=
  let sortprf := List.insertionSort (· ≤ ·) (prf.take (PROOFSIZE WK))
  let maxValue := 2 ^ (DIGITBITS WN WK + 1) - 1
  if maxValue < sortprf.getD 0 0 then true
  else (List.range (PROOFSIZE WK - 1)).any fun i =>
    decide (sortprf.getD (i + 1) 0 ≤ sortprf.getD i 0) ||
    decide (maxValue < sortprf.getD (i + 1) 0)

/-- miner.h `verify(indices, proofsize, input, input_len, nonce)`: the
guard chain before `verifyrec`.  The BLAKE2b midstate that `setheader`
derives from `(input, input_len, nonce)` is abstracted as `oracle`. -/
def verifyM (WN WK : Nat) (oracle : Nat → List Nat) (indices : List Nat)
    (proofsize input_len : Nat) : Nat :=
  if HEADERNONCELEN < input_len then POW_INVALID_HEADER_LENGTH
  else if proofsize ≠ PROOFSIZE WK then POW_SOL_SIZE_MISMATCH
  else if dupedM WN WK indices then POW_DUPLICATE
  else (verifyrecM WN WK oracle indices WK).1

/-- The caller-visible memory of `verify`: the proof buffer passed in by
the caller and the local `hash` output buffer. -/
structure VerifyMem where
  prf : List Nat
  hashbuf : List Nat

/-- State-passing embedding of `verify`: every store the source performs
goes to a private copy (`duped`) or to the local `hash` buffer
(`verifyrec`); the proof buffer is only ever read. -/
def verifySt (WN WK : Nat) (oracle : Nat → List Nat)
    (proofsize input_len : Nat) (m : VerifyMem) : Nat × VerifyMem :=
  if HEADERNONCELEN < input_len then (POW_INVALID_HEADER_LENGTH, m)
  else if proofsize ≠ PROOFSIZE WK then (POW_SOL_SIZE_MISMATCH, m)
  else if dupedM WN WK m.prf then (POW_DUPLICATE, m)
  else
    let vr := verifyrecM WN WK oracle m.prf WK
    (vr.1, { m with hashbuf := vr.2 })

/-- Bit `i` of a byte string, big-endian within each byte (bit 0 is the
most significant bit of byte 0). -/
def bitOf (h : List Nat) (i : Nat) : Nat :=
  (h.getD (i / 8) 0 >>> (7 - i % 8)) % 2

/-! ### The dispatcher (solver.cpp) -/

/-- solver.cpp: the rows of the `solvers` table, as the template
parameters `(N, K)` they are instantiated with; `solution_size` and
`proof_size` of a row derive from these. -/
def solversM : List (Nat × Nat) := [(48, 5), (96, 5), (144, 5), (200, 9)]

/-- solver.cpp `find_solver(n)`: linear scan of the table comparing `N`
only. -/
def find_solver (n : Nat) : Option (Nat × Nat) :=
  solversM.find? (fun r => r.1 == n)

/-- solver.cpp `EquihashValidate(n, k, input, len, soln)`: guard, table
lookup by `N`, decode with `collision_bit_length = n/(k+1)` (the caller
supplied `k`), then the row instantiation of `verify` with the decoded
index count as `proofsize`. -/
def EquihashValidateM (oracle : Nat → List Nat) (n k : Int)
    (input_len : Nat) (soln : List Nat) : Nat :=
  if n ≤ 0 ∨ k ≤ 0 then POW_UNKNOWN_PARAMS
  else
    match find_solver n.toNat with
    | none => POW_UNKNOWN_PARAMS
    | some r =>
      let cbl := n.toNat / (k.toNat + 1)
      let indices := to_indices soln (equihash_solution_size r.1 r.2) cbl
      verifyM r.1 r.2 oracle indices indices.length input_len

/-! ### The Cantor-paired tree node (miner.h struct tree, CANTOR builds) -/

/-- miner.h `tree::cantor(s0, s1) = s1*(s1+1)/2 + s0` (uint32). -/
def cantorM (s0 s1 : Nat) : Nat := (s1 * (s1 + 1) / 2 + s0) % 2 ^ 32

/-- miner.h `tree(bid, s0, s1)` in the CANTOR branch:
`bid_s0_s1 = (bid << CANTORBITS) | cantor(s0, s1)`. -/
def treeEncCantor (bid s0 s1 : Nat) : Nat :=
  ((bid <<< CANTORBITS 200 9) ||| cantorM s0 s1) % 2 ^ 32

/-- miner.h `tree::bucketid()` in the CANTOR branch:
`bid_s0_s1 >> (2*SLOTBITS - 2)`. -/
def treeBucketid (v : Nat) : Nat := v >>> (2 * SLOTBITS 200 9 - 2)

/-- miner.h `tree::slotid0(s1)` in the CANTOR branch:
`(bid_s0_s1 & CANTORMASK) - cantor(0, s1)` with uint32 wraparound
subtraction. -/
def treeSlotid0 (v s1 : Nat) : Nat :=
  ((v &&& CANTORMASK 200 9) + (2 ^ 32 - cantorM 0 s1)) % 2 ^ 32

/-- The iterative integer square root of `tree::slotid1`:
`for (k = CANTORMAXSQRT; (q = sqr / k) < k; k = (k + q) / 2);`. -/
def sqrtLoop (sqr : Nat) (k : Nat) : Nat :=
  if h : sqr / k < k then sqrtLoop sqr ((k + sqr / k) / 2) else k
termination_by k
decreasing_by omega

/-- miner.h `tree::slotid1()` in the CANTOR branch:
`sqr = 8*(bid_s0_s1 & CANTORMASK) + 1`, Newton loop, `(k-1)/2`. -/
def treeSlotid1 (v : Nat) : Nat :=
  (sqrtLoop (8 * (v &&& CANTORMASK 200 9) + 1) (CANTORMAXSQRT 200 9) - 1) / 2

/-! ### combineRows of the two reference solvers (basicSolver.c / -opt.c) -/

/-- `memcmp(a, b, n) < 0` on byte buffers of equal length. -/
def memcmpLt : List Nat → List Nat → Bool
  | a :: as, b :: bs =>
    if a % 256 < b % 256 then true
    else if b % 256 < a % 256 then false
    else memcmpLt as bs
  | _, _ => false

/-- basicSolver.c `combineRows(hash, a, b, len, lenIndices, trim)`:
XOR the hash parts from `trim` on, then place the whole index sub-array
of the `indicesBefore` (memcmp-smaller) parent first, the other second. -/
def combineRowsBasic (aHash bHash aIdx bIdx : List Nat) (trim : Nat) :
    List Nat × List Nat :=
  (List.zipWith (fun x y => x % 256 ^^^ y % 256) (aHash.drop trim) (bHash.drop trim),
   if memcmpLt aIdx bIdx then aIdx ++ bIdx else bIdx ++ aIdx)

/-- basicSolver-opt.c `joinSortedArrays(dst, a, b, len)` fills `dst` from
the top, taking the larger rear element first; modelled on the reversed
(largest-first) lists. -/
def joinFromTop : List Nat → List Nat → List Nat
  | [], bs => bs
  | a :: as, [] => a :: as
  | a :: as, b :: bs =>
    if b ≤ a then a :: joinFromTop as (b :: bs)
    else b :: joinFromTop (a :: as) bs
termination_by as bs => as.length + bs.length

/-- basicSolver-opt.c `joinSortedArrays` on index-value lists. -/
def joinSortedArraysM (a b : List Nat) : List Nat :=
  (joinFromTop a.reverse b.reverse).reverse

/-- basicSolver-opt.c `combineRows`: XOR of the trimmed hash parts and the
merge of the two (sorted) index sub-arrays, here with the index sub-arrays
given as their `uint32` value lists. -/
def combineRowsOpt (aHash bHash aIdx bIdx : List Nat) (trim : Nat) :
    List Nat × List Nat :=
  (List.zipWith (fun x y => x % 256 ^^^ y % 256) (aHash.drop trim) (bHash.drop trim),
   joinSortedArraysM aIdx bIdx)

/-! ### The optimized solver, instantiated at (WN,WK) = (48,5)
(miner.h TrompEquihash<48,5>: digitZero / digitodd / digiteven / digitK /
candidate / worker / solve)

Derived constants for this instantiation: `DIGITBITS = 8`, `RESTBITS = 4`,
`BUCKBITS = 4` (16 buckets), `NSLOTS = 64`, `tree_t = uint16`
(`TREEBYTES = 2`), slots of `HASHWORDS0+1 = 4` two-byte units,
`HASHESPERBLAKE = 10`, `NBLOCKS = 52`, `PROOFSIZE = 32`, `MAXSOLS = 8`.
A slot is modelled as its 8 bytes; `tree_t` word operations (XOR and
equality) act bytewise, so the byte view is exact, and a tag unit is
stored/read as a little-endian pair, never aliased by hash bytes. -/

/-- miner.h `hashsize(r)` at `(48,5)`. -/
def hashsize48 (r : Nat) : Nat := (48 - (r + 1) * 8 + 4 + 7) >>> 3

/-- miner.h `hashwords(bytes)` at `(48,5)` (`TREEBYTES = 2`). -/
def hashwords48 (b : Nat) : Nat := (b + 1) / 2

/-- htlayout `prevhtunits` for round `r ≥ 1`. -/
def prevhtunits48 (r : Nat) : Nat := hashwords48 (hashsize48 (r - 1))

/-- htlayout `nexthtunits`. -/
def nexthtunits48 (r : Nat) : Nat := hashwords48 (hashsize48 r)

/-- htlayout `prevbo` for round `r ≥ 1`. -/
def prevbo48 (r : Nat) : Nat := prevhtunits48 r * 2 - hashsize48 (r - 1)

/-- htlayout `dunits` for round `r ≥ 1`. -/
def dunits48 (r : Nat) : Nat := prevhtunits48 r - nexthtunits48 r

/-- miner.h `tree(bid, s0, s1)` in the non-CANTOR branch (`uint16`). -/
def tree16 (bid s0 s1 : Nat) : Nat := ((bid <<< 6 ||| s0) <<< 6 ||| s1) % 2 ^ 16

/-- `tree::bucketid()`, non-CANTOR: `v >> (2*SLOTBITS)`. -/
def tree16bucketid (v : Nat) : Nat := v >>> 12

/-- `tree::slotid0()`, non-CANTOR: `(v >> SLOTBITS) & SLOTMASK`. -/
def tree16slotid0 (v : Nat) : Nat := (v >>> 6) &&& 63

/-- `tree::slotid1()`, non-CANTOR: `v & SLOTMASK`. -/
def tree16slotid1 (v : Nat) : Nat := v &&& 63

/-- `tree::prob_disjoint(other)`, non-CANTOR branch. -/
def prob_disjoint16 (v0 v1 : Nat) : Bool :=
  let x := v0 ^^^ v1
  decide (tree16bucketid x ≠ 0) ||
    (decide (tree16slotid0 x ≠ 0) && decide (tree16slotid1 x ≠ 0))

/-- The two bytes of a `tree_t` tag unit (little-endian store). -/
def tagBytes (v : Nat) : List Nat := [v % 256, v / 256 % 256]

/-- Read the tag at unit index `tagi` of a slot. -/
def readTag (slot : List Nat) (tagi : Nat) : Nat :=
  slot.getD (2 * tagi) 0 + 256 * slot.getD (2 * tagi + 1) 0

/-- The solver state: the two heaps (16 buckets × 64 slots × 8 bytes),
the per-heap slot counters, and the recorded solutions. -/
structure EqState where
  heap0 : List (List (List Nat))
  heap1 : List (List (List Nat))
  cnt0 : List Nat
  cnt1 : List Nat
  sols : List (List Nat)
  nsols : Nat
deriving DecidableEq

/-- The zero-initialised (`calloc`) state after the constructor. -/
def initState48 : EqState :=
  ⟨List.replicate 16 (List.replicate 64 (List.replicate 8 0)),
   List.replicate 16 (List.replicate 64 (List.replicate 8 0)),
   List.replicate 16 0, List.replicate 16 0, [], 0⟩

/-- Fetch the bytes of bucket `b` slot `s`. -/
def getSlot (heap : List (List (List Nat))) (b s : Nat) : List Nat :=
  (heap.getD b []).getD s []

/-- Store a slot back. -/
def setSlot (heap : List (List (List Nat))) (b s : Nat) (slot : List Nat) :
    List (List (List Nat)) :=
  heap.set b ((heap.getD b []).set s slot)

/-- Overwrite `vals.length` bytes of a slot at byte offset `off`. -/
def writeBytes (slot : List Nat) (off : Nat) (vals : List Nat) : List Nat :=
  slot.take off ++ vals ++ slot.drop (off + vals.length)

/-- `htlayout::equal`: compare word `w` (two bytes) of two slots. -/
def equalWord (s0 s1 : List Nat) (w : Nat) : Bool :=
  decide (s0.getD (2 * w) 0 = s1.getD (2 * w) 0) &&
    decide (s0.getD (2 * w + 1) 0 = s1.getD (2 * w + 1) 0)

/-- `collisiondata`: the slots colliding with `s1` on the rest bits, as
`addslot`/`nextcollision`/`slot` would yield them (most recent first). -/
def collisionSlots (buck : List (List Nat)) (pb s1 x1 : Nat) : List Nat :=
  ((List.range s1).filter
    (fun s0 => (buck.getD s0 []).getD pb 0 &&& 15 == x1)).reverse

/-- One blake block of miner.h `digitZero` at `(48,5)`: 10 hashes, each
bucketed on its top `BUCKBITS = 4` bits; the 6 hash bytes are stored
before the tag unit, tag = generating index. -/
def digitZeroBlockM (oracle : Nat → List Nat) (st : EqState) (block : Nat) : EqState :=
  (List.range 10).foldl (fun st j =>
    let ph := ((oracle block).drop (j * 6)).take 6
    let bucketid := (ph.getD 0 0 % 256) >>> 4
    let slot := st.cnt0.getD bucketid 0
    let st2 := { st with cnt0 := st.cnt0.set bucketid (slot + 1) }
    if 64 ≤ slot then st2
    else
      let newSlot := writeBytes (writeBytes (getSlot st2.heap0 bucketid slot) 0
        (ph.map (· % 256))) 6 (tagBytes ((block * 10 + j) % 2 ^ 16))
      { st2 with heap0 := setSlot st2.heap0 bucketid slot newSlot }) st

/-- miner.h `digitZero` at `(48,5)`: 52 blake blocks of 10 hashes each. -/
def digitZeroM (oracle : Nat → List Nat) (st : EqState) : EqState :=
  (List.range 52).foldl (digitZeroBlockM oracle) st

/-- miner.h `digitodd(r)` at `(48,5)`: heap0 → heap1; rest bits are
`bytes[prevbo] & 0xf` (`getxhash0`), the xor bucket is
`(bytes0[prevbo+1] ^ bytes1[prevbo+1]) >> 4`, and slots whose last hash
word coincides are skipped. -/
def digitoddBucketM (r : Nat) (st : EqState) (bucketid : Nat) : EqState :=
  let bsize := min (st.cnt0.getD bucketid 0) 64
  let st := { st with cnt0 := st.cnt0.set bucketid 0 }
  let buck := st.heap0.getD bucketid []
  (List.range bsize).foldl (fun st s1 =>
    let slot1 := buck.getD s1 []
    (collisionSlots buck (prevbo48 r) s1 (slot1.getD (prevbo48 r) 0 &&& 15)).foldl
      (fun st s0 =>
        let slot0 := buck.getD s0 []
        if equalWord slot0 slot1 (prevhtunits48 r - 1) then st
        else
          let xorbucketid :=
            (slot0.getD (prevbo48 r + 1) 0 ^^^ slot1.getD (prevbo48 r + 1) 0) >>> 4
          let xorslot := st.cnt1.getD xorbucketid 0
          let st2 := { st with cnt1 := st.cnt1.set xorbucketid (xorslot + 1) }
          if 64 ≤ xorslot then st2
          else
            let newSlot := writeBytes (writeBytes (getSlot st2.heap1 xorbucketid xorslot) 0
              ((List.range (2 * (prevhtunits48 r - dunits48 r))).map
                (fun i => slot0.getD (2 * dunits48 r + i) 0 ^^^
                  slot1.getD (2 * dunits48 r + i) 0)))
              (2 * (prevhtunits48 r - dunits48 r))
              (tagBytes (tree16 bucketid s0 s1))
            { st2 with heap1 := setSlot st2.heap1 xorbucketid xorslot newSlot }) st) st

/-- miner.h `digitodd(r)` over all 16 buckets. -/
def digitoddM (r : Nat) (st : EqState) : EqState :=
  (List.range 16).foldl (digitoddBucketM r) st

/-- miner.h `digiteven(r)` at `(48,5)`: heap1 → heap0, same rest and
xor-bucket extraction as the odd rounds at these parameters. -/
def digitevenBucketM (r : Nat) (st : EqState) (bucketid : Nat) : EqState :=
  let bsize := min (st.cnt1.getD bucketid 0) 64
  let st := { st with cnt1 := st.cnt1.set bucketid 0 }
  let buck := st.heap1.getD bucketid []
  (List.range bsize).foldl (fun st s1 =>
    let slot1 := buck.getD s1 []
    (collisionSlots buck (prevbo48 r) s1 (slot1.getD (prevbo48 r) 0 &&& 15)).foldl
      (fun st s0 =>
        let slot0 := buck.getD s0 []
        if equalWord slot0 slot1 (prevhtunits48 r - 1) then st
        else
          let xorbucketid :=
            (slot0.getD (prevbo48 r + 1) 0 ^^^ slot1.getD (prevbo48 r + 1) 0) >>> 4
          let xorslot := st.cnt0.getD xorbucketid 0
          let st2 := { st with cnt0 := st.cnt0.set xorbucketid (xorslot + 1) }
          if 64 ≤ xorslot then st2
          else
            let newSlot := writeBytes (writeBytes (getSlot st2.heap0 xorbucketid xorslot) 0
              ((List.range (2 * (prevhtunits48 r - dunits48 r))).map
                (fun i => slot0.getD (2 * dunits48 r + i) 0 ^^^
                  slot1.getD (2 * dunits48 r + i) 0)))
              (2 * (prevhtunits48 r - dunits48 r))
              (tagBytes (tree16 bucketid s0 s1))
            { st2 with heap0 := setSlot st2.heap0 xorbucketid xorslot newSlot }) st) st

/-- miner.h `digiteven(r)` over all 16 buckets. -/
def digitevenM (r : Nat) (st : EqState) : EqState :=
  (List.range 16).foldl (digitevenBucketM r) st

mutual

/-- miner.h `listindices1(r, t, indices)` (heap0 side): reconstruct the
`2^(r-1)`-leaf index lists of the two children, Wagner-order them
(`orderindices`), and fail on an equal-head dupe; `none` models a `true`
(failing) return. -/
def listindices1M (st : EqState) : Nat → Nat → Option (List Nat)
  | 0, _ => none
  | r + 1, t =>
    let buck := st.heap0.getD (tree16bucketid t) []
    let tagi := hashwords48 (hashsize48 r)
    let t0 := readTag (buck.getD (tree16slotid0 t) []) tagi
    let t1 := readTag (buck.getD (tree16slotid1 t) []) tagi
    match listindices0M st r t0, listindices0M st r t1 with
    | some l0, some l1 =>
      let ordered := if l1.getD 0 0 < l0.getD 0 0 then l1 ++ l0 else l0 ++ l1
      if ordered.getD 0 0 == ordered.getD (2 ^ r) 0 then none else some ordered
    | _, _ => none

/-- miner.h `listindices0(r, t, indices)` (heap1 side), with the
`prob_disjoint` pre-check of the two child tags. -/
def listindices0M (st : EqState) : Nat → Nat → Option (List Nat)
  | 0, t => some [t]
  | r + 1, t =>
    let buck := st.heap1.getD (tree16bucketid t) []
    let tagi := hashwords48 (hashsize48 r)
    let t0 := readTag (buck.getD (tree16slotid0 t) []) tagi
    let t1 := readTag (buck.getD (tree16slotid1 t) []) tagi
    if ! prob_disjoint16 t0 t1 then none
    else
      match listindices1M st r t0, listindices1M st r t1 with
      | some l0, some l1 =>
        let ordered := if l1.getD 0 0 < l0.getD 0 0 then l1 ++ l0 else l0 ++ l1
        if ordered.getD 0 0 == ordered.getD (2 ^ r) 0 then none else some ordered
      | _, _ => none

end

/-- miner.h `candidate(t)`: record the reconstructed proof unless the
reconstruction failed or `duped` holds; only the first `MAXSOLS = 8`
proofs are stored, but `nsols` always counts. -/
def candidateM (st : EqState) (t : Nat) : EqState :=
  match listindices1M st 5 t with
  | none => st
  | some prf =>
    if dupedM 48 5 prf then st
    else
      let newSols := if st.nsols < 8 then st.sols ++ [prf] else st.sols
      { st with nsols := st.nsols + 1, sols := newSols }

/-- miner.h `digitK` at `(48,5)`: a pair whose final word coincides and
whose tags are probably disjoint is a solution candidate. -/
def digitKBucketM (st : EqState) (bucketid : Nat) : EqState :=
  let bsize := min (st.cnt0.getD bucketid 0) 64
  let st := { st with cnt0 := st.cnt0.set bucketid 0 }
  (List.range bsize).foldl (fun st s1 =>
    let slot1 := getSlot st.heap0 bucketid s1
    (collisionSlots (st.heap0.getD bucketid []) 0 s1 (slot1.getD 0 0 &&& 15)).foldl
      (fun st s0 =>
        let slot0 := getSlot st.heap0 bucketid s0
        if equalWord slot0 slot1 0 &&
            prob_disjoint16 (readTag slot0 1) (readTag slot1 1) then
          candidateM st (tree16 bucketid s0 s1)
        else st) st) st

/-- miner.h `digitK` over all 16 buckets. -/
def digitKM (st : EqState) : EqState :=
  (List.range 16).foldl digitKBucketM st

/-- miner.h `worker()` at `(48,5)`, the `r = 1..WK-1` loop unrolled; the
callback is threaded through an explicit state `σ` and each poll passes a
null solution (`none`).  The result carries, besides the final state, the
callback state, and the C return value (0 on cancellation, 1 otherwise),
the index of the first cancelling poll (`none` when the run completed) as
a purely observational extra. -/
def workerM {σ : Type} (oracle : Nat → List Nat)
    (cb : σ → Option (List Nat) → σ × Int) (s : σ) :
    EqState × σ × Int × Option Nat :=
  let st := digitZeroM oracle initState48
  let p1 := cb s none
  if p1.2 ≠ 0 then (st, p1.1, 0, some 1)
  else
    let st := digitoddM 1 st
    let p2 := cb p1.1 none
    if p2.2 ≠ 0 then (st, p2.1, 0, some 2)
    else
      let st := digitevenM 2 st
      let p3 := cb p2.1 none
      if p3.2 ≠ 0 then (st, p3.1, 0, some 3)
      else
        let st := digitoddM 3 st
        let p4 := cb p3.1 none
        if p4.2 ≠ 0 then (st, p4.1, 0, some 4)
        else
          let st := digitevenM 4 st
          let p5 := cb p4.1 none
          if p5.2 ≠ 0 then (st, p5.1, 0, some 5)
          else
            let st := digitKM st
            let p6 := cb p5.1 none
            if p6.2 ≠ 0 then (st, p6.1, 0, some 6)
            else (st, p6.1, 1, none)

/-- The emission loop of miner.h `solve`: deliver each stored solution in
compressed (minimal) form; callback result 1 stops with return 1, result
2 stops with return 0, any other result continues; the loop falls through
to returning `nsols`. -/
def emitLoop {σ : Type} (cb : σ → Option (List Nat) → σ × Int) (nsols : Nat) :
    σ → List (List Nat) → σ × Int
  | s, [] => (s, Int.ofNat nsols)
  | s, sol :: rest =>
    let p := cb s (some (GetMinimalFromIndices 8 sol))
    if p.2 = 1 then (p.1, 1)
    else if p.2 = 2 then (p.1, 0)
    else emitLoop cb nsols p.1 rest

/-- miner.h `solve` at `(48,5)`: run the worker (its return value is
discarded, exactly as in the source), then deliver up to
`min MAXSOLS nsols` recorded solutions. -/
def solveM {σ : Type} (oracle : Nat → List Nat)
    (cb : σ → Option (List Nat) → σ × Int) (s : σ) : σ × Int :=
  let w := workerM oracle cb s
  emitLoop cb w.1.nsols w.2.1 (w.1.sols.take (min 8 w.1.nsols))

/-! ### A concrete oracle under which the (48,5) solver finds solutions -/

/-- Per-pair `byte 5` patterns of the two planted solution families. -/
def Qpat : Nat → List Nat
  | 0 => [0x08, 0x0a, 0x10, 0x13, 0x20, 0x24, 0x40, 0x45]
  | _ => [0x0b, 0x0d, 0x11, 0x15, 0x21, 0x26, 0x41, 0x44]

/-- Leaf hash of local index `li < 32` in family `f ∈ {0,1}`. -/
def famHash (f li : Nat) : List Nat :=
  let base := if f = 0 then 0 else 4
  [base * 16 + (li >>> 1),
   if li % 2 = 0 then (base + 1) * 16 + (li >>> 2) else 0,
   if li % 4 = 0 then (base + 2) * 16 + (li >>> 3) else 0,
   if li % 8 = 0 then (base + 3) * 16 + (li >>> 4) else 0,
   0,
   if li % 2 = 1 then
     (if (li >>> 1) % 2 = 0 then (if f = 0 then 0x80 else 0x90)
      else (if f = 0 then 0x80 else 0x90) ^^^ (Qpat f).getD (li >>> 2) 0)
   else 0]

/-- The leaf hashes: two planted 32-leaf families (leaves `0..31` and
`40..71`) and fillers everywhere else; the fillers all land in bucket 15
with identical tail bytes, so every filler collision stops at the
equal-word skip and no filler survives the first round. -/
def leafHash (i : Nat) : List Nat :=
  if i < 32 then famHash 0 i
  else if 40 ≤ i ∧ i < 72 then famHash 1 (i - 40)
  else [240 + i % 16, 0xEE, 0xDD, 0xCC, 0xBB, 0xAA]

/-- The BLAKE2b oracle of the planted run: block `g` yields the 10 leaf
hashes `10g .. 10g+9`. -/
def solOracle (g : Nat) : List Nat :=
  ((List.range 10).map (fun j => leafHash (g * 10 + j))).flatten

/-- A recording callback that answers every delivered solution with the
(non-zero, non-1, non-2) result 3 and every poll with 0. -/
def cb3 (s : List (Option (List Nat))) (o : Option (List Nat)) :
    List (Option (List Nat)) × Int :=
  (s ++ [o], match o with | none => 0 | some _ => 3)

/-- A recording callback that cancels (result 1) at the sixth poll -- the
one `worker` issues after `digitK` -- and accepts everything else. -/
def cbCancelAfterK (s : List (Option (List Nat))) (o : Option (List Nat)) :
    List (Option (List Nat)) × Int :=
  (s ++ [o], match o with
    | none => if s.length = 5 then 1 else 0
    | some _ => 0)

/-! #### Evaluated intermediate states of the planted run

The solver run on `solOracle` is evaluated in stages (the blake blocks of
`digitZero` in four chunks, then one digit round at a time); the states
between stages are spelled out below so that each stage is a small closed
computation. -/

/-- An untouched (`calloc`-clean) bucket. -/
def emptyBucket : List (List Nat) := List.replicate 64 (List.replicate 8 0)

/-- The bucket holding a planted family after `digitZero`: slot `s` keeps
the 6 hash bytes of leaf `off + s` followed by its index tag. -/
def famBucket (f off : Nat) : List (List Nat) :=
  (List.range 32).map (fun s => (famHash f s).map (· % 256) ++ tagBytes (off + s)) ++
    List.replicate 32 (List.replicate 8 0)

/-- Bucket 15 after `digitZero`: the first 64 filler leaves (32..39 and
72..127). -/
def fillBucket : List (List Nat) :=
  (List.range 64).map (fun s =>
    [240 + s % 16, 238, 221, 204, 187, 170, if s < 8 then 32 + s else 64 + s, 0])

/-- `heap0` after `digitZero` on the planted oracle. -/
def T0heap0 : List (List (List Nat)) :=
  (((List.replicate 16 emptyBucket).set 0 (famBucket 0 0)).set 4
    (famBucket 1 40)).set 15 fillBucket

def B1slots : List (List Nat) :=
  [[0, 16, 32, 48, 0, 128, 1, 0],
   [0, 16, 0, 0, 0, 136, 131, 0],
   [0, 17, 32, 0, 0, 128, 5, 1],
   [0, 17, 0, 0, 0, 138, 135, 1],
   [0, 18, 33, 48, 0, 128, 9, 2],
   [0, 18, 0, 0, 0, 144, 139, 2],
   [0, 19, 33, 0, 0, 128, 13, 3],
   [0, 19, 0, 0, 0, 147, 143, 3],
   [0, 20, 34, 49, 0, 128, 17, 4],
   [0, 20, 0, 0, 0, 160, 147, 4],
   [0, 21, 34, 0, 0, 128, 21, 5],
   [0, 21, 0, 0, 0, 164, 151, 5],
   [0, 22, 35, 49, 0, 128, 25, 6],
   [0, 22, 0, 0, 0, 192, 155, 6],
   [0, 23, 35, 0, 0, 128, 29, 7],
   [0, 23, 0, 0, 0, 197, 159, 7]]

def B5slots : List (List Nat) :=
  [[0, 80, 96, 112, 0, 144, 1, 64],
   [0, 80, 0, 0, 0, 155, 131, 64],
   [0, 81, 96, 0, 0, 144, 5, 65],
   [0, 81, 0, 0, 0, 157, 135, 65],
   [0, 82, 97, 112, 0, 144, 9, 66],
   [0, 82, 0, 0, 0, 129, 139, 66],
   [0, 83, 97, 0, 0, 144, 13, 67],
   [0, 83, 0, 0, 0, 133, 143, 67],
   [0, 84, 98, 113, 0, 144, 17, 68],
   [0, 84, 0, 0, 0, 177, 147, 68],
   [0, 85, 98, 0, 0, 144, 21, 69],
   [0, 85, 0, 0, 0, 182, 151, 69],
   [0, 86, 99, 113, 0, 144, 25, 70],
   [0, 86, 0, 0, 0, 209, 155, 70],
   [0, 87, 99, 0, 0, 144, 29, 71],
   [0, 87, 0, 0, 0, 212, 159, 71]]

def B2slots : List (List Nat) :=
  [[32, 48, 0, 8, 1, 16, 0, 0],
   [32, 0, 0, 10, 131, 16, 0, 0],
   [33, 48, 0, 16, 5, 17, 0, 0],
   [33, 0, 0, 19, 135, 17, 0, 0],
   [34, 49, 0, 32, 9, 18, 0, 0],
   [34, 0, 0, 36, 139, 18, 0, 0],
   [35, 49, 0, 64, 13, 19, 0, 0],
   [35, 0, 0, 69, 143, 19, 0, 0]]

def B6slots : List (List Nat) :=
  [[96, 112, 0, 11, 1, 80, 0, 0],
   [96, 0, 0, 13, 131, 80, 0, 0],
   [97, 112, 0, 17, 5, 81, 0, 0],
   [97, 0, 0, 21, 135, 81, 0, 0],
   [98, 113, 0, 33, 9, 82, 0, 0],
   [98, 0, 0, 38, 139, 82, 0, 0],
   [99, 113, 0, 65, 13, 83, 0, 0],
   [99, 0, 0, 68, 143, 83, 0, 0]]

def B3slots : List (List Nat) :=
  [[0, 48, 0, 2, 1, 32, 0, 0],
   [0, 48, 0, 3, 131, 32, 0, 0],
   [0, 49, 0, 4, 5, 33, 0, 0],
   [0, 49, 0, 5, 135, 33, 0, 0]]

def B7slots : List (List Nat) :=
  [[0, 112, 0, 6, 1, 96, 0, 0],
   [0, 112, 0, 4, 131, 96, 0, 0],
   [0, 113, 0, 7, 5, 97, 0, 0],
   [0, 113, 0, 5, 135, 97, 0, 0]]

def B0slots : List (List Nat) :=
  [[0, 1, 1, 48, 0, 0, 0, 0],
   [0, 1, 131, 48, 0, 128, 1, 0],
   [0, 2, 1, 112, 0, 0, 2, 0],
   [0, 2, 131, 112, 0, 136, 3, 0]]

/-- `heap1` after round 1. -/
def T1heap1 : List (List (List Nat)) :=
  ((List.replicate 16 emptyBucket).set 1
    (B1slots ++ List.replicate 48 (List.replicate 8 0))).set 5
    (B5slots ++ List.replicate 48 (List.replicate 8 0))

/-- `heap0` after round 2. -/
def T2heap0 : List (List (List Nat)) :=
  (T0heap0.set 2 (B2slots ++ List.replicate 56 (List.replicate 8 0))).set 6
    (B6slots ++ List.replicate 56 (List.replicate 8 0))

/-- `heap1` after round 3. -/
def T3heap1 : List (List (List Nat)) :=
  (T1heap1.set 3 (B3slots ++ List.replicate 60 (List.replicate 8 0))).set 7
    (B7slots ++ List.replicate 60 (List.replicate 8 0))

/-- `heap0` after round 4: bucket 0 keeps bytes 4..7 of the `digitZero`
slots underneath the 4 freshly written slots. -/
def T4heap0 : List (List (List Nat)) :=
  T2heap0.set 0 (B0slots ++ (famBucket 0 0).drop 4)

def czero : List Nat := List.replicate 16 0

/-- The state after 13 blake blocks of `digitZero`. -/
def stA0 : EqState :=
  ⟨T0heap0, List.replicate 16 emptyBucket,
   [32, 0, 0, 0, 32, 0, 0, 0, 0, 0, 0, 0, 0, 0, 0, 66], czero, [], 0⟩

/-- The state after 26 blake blocks. -/
def stA1 : EqState :=
  { stA0 with cnt0 := [32, 0, 0, 0, 32, 0, 0, 0, 0, 0, 0, 0, 0, 0, 0, 196] }

/-- The state after 39 blake blocks. -/
def stA2 : EqState :=
  { stA0 with cnt0 := [32, 0, 0, 0, 32, 0, 0, 0, 0, 0, 0, 0, 0, 0, 0, 326] }

/-- The state after `digitZero` (52 blocks). -/
def stT0 : EqState :=
  { stA0 with cnt0 := [32, 0, 0, 0, 32, 0, 0, 0, 0, 0, 0, 0, 0, 0, 0, 456] }

/-- The state after round 1. -/
def stT1 : EqState :=
  ⟨T0heap0, T1heap1, czero,
   [0, 16, 0, 0, 0, 16, 0, 0, 0, 0, 0, 0, 0, 0, 0, 0], [], 0⟩

/-- The state after round 2. -/
def stT2 : EqState :=
  ⟨T2heap0, T1heap1,
   [0, 0, 8, 0, 0, 0, 8, 0, 0, 0, 0, 0, 0, 0, 0, 0], czero, [], 0⟩

/-- The state after round 3. -/
def stT3 : EqState :=
  ⟨T2heap0, T3heap1, czero,
   [0, 0, 0, 4, 0, 0, 0, 4, 0, 0, 0, 0, 0, 0, 0, 0], [], 0⟩

/-- The state after round 4. -/
def stT4 : EqState :=
  ⟨T4heap0, T3heap1,
   [4, 0, 0, 0, 0, 0, 0, 0, 0, 0, 0, 0, 0, 0, 0, 0], czero, [], 0⟩

/-- The state after `digitK`: both planted solutions found. -/
def stT5 : EqState :=
  ⟨T4heap0, T3heap1, czero, czero,
   [List.range 32, (List.range 32).map (fun i => 40 + i)], 2⟩

/-! ### Arithmetic helpers for the codec proofs -/

theorem pow256_eq (L : Nat) : 256 ^ L = 2 ^ (8 * L) := by
  rw [show (256 : Nat) = 2 ^ 8 from rfl, ← pow_mul]

theorem mod_pow_shiftRight (x a b : Nat) :
    (x % 2 ^ a) >>> b = (x >>> b) % 2 ^ (a - b) := by
  rcases Nat.le_total b a with h | h
  · have ha : (2 : Nat) ^ a = 2 ^ b * 2 ^ (a - b) := by
      rw [← pow_add]; congr 1; omega
    simp only [Nat.shiftRight_eq_div_pow, ha, Nat.mod_mul_right_div_self]
  · have h0 : a - b = 0 := by omega
    have hlt : x % 2 ^ a < 2 ^ b :=
      lt_of_lt_of_le (Nat.mod_lt _ (Nat.pos_pow_of_pos _ (by norm_num)))
        (Nat.pow_le_pow_right (by norm_num) h)
    rw [h0, Nat.shiftRight_eq_div_pow, Nat.div_eq_of_lt hlt, pow_zero, Nat.mod_one]

theorem mod_mod_pow_le {a b : Nat} (x : Nat) (h : b ≤ a) :
    (x % 2 ^ a) % 2 ^ b = x % 2 ^ b :=
  Nat.mod_mod_of_dvd x (pow_dvd_pow 2 h)

theorem mod_mod_pow_ge {a b : Nat} (x : Nat) (h : a ≤ b) :
    (x % 2 ^ a) % 2 ^ b = x % 2 ^ a :=
  Nat.mod_eq_of_lt (lt_of_lt_of_le (Nat.mod_lt _ (Nat.pos_pow_of_pos _ (by norm_num)))
    (Nat.pow_le_pow_right (by norm_num) h))

theorem two_pow_split (s B : Nat) (h : s ≤ B) :
    ∃ q, 2 ^ B = 2 ^ s * (q + 1) ∧ 2 ^ (B - s) = q + 1 := by
  have hB : (2 : Nat) ^ B = 2 ^ s * 2 ^ (B - s) := by rw [← pow_add]; congr 1; omega
  have h2 : (1 : Nat) ≤ 2 ^ (B - s) := Nat.one_le_two_pow
  have he : 2 ^ (B - s) - 1 + 1 = 2 ^ (B - s) := by omega
  exact ⟨2 ^ (B - s) - 1, by rw [he]; exact hB, by omega⟩

theorem two_pow_sub_one_shiftRight (B s : Nat) :
    (2 ^ B - 1) >>> s = 2 ^ (B - s) - 1 := by
  rw [Nat.shiftRight_eq_div_pow]
  rcases Nat.le_total s B with h | h
  · obtain ⟨q, hq1, hq2⟩ := two_pow_split s B h
    have hP : (1 : Nat) ≤ 2 ^ s := Nat.one_le_two_pow
    have hqs : 2 ^ s * (q + 1) - 1 = 2 ^ s * q + (2 ^ s - 1) := by
      rw [Nat.mul_add, Nat.mul_one]; omega
    rw [hq1, hq2, hqs, Nat.mul_add_div (by omega), Nat.div_eq_of_lt (by omega)]
    omega
  · have h0 : B - s = 0 := by omega
    have h1 : (2 : Nat) ^ B ≤ 2 ^ s := Nat.pow_le_pow_right (by norm_num) h
    have h2 : (1 : Nat) ≤ 2 ^ B := Nat.one_le_two_pow
    rw [h0, Nat.div_eq_of_lt (by omega), pow_zero]
    omega

theorem two_pow_sub_one_mod (t u : Nat) :
    (2 ^ t - 1) % 2 ^ u = 2 ^ min t u - 1 := by
  rcases Nat.le_total t u with h | h
  · rw [Nat.min_eq_left h, Nat.mod_eq_of_lt]
    have h1 : (2 : Nat) ^ t ≤ 2 ^ u := Nat.pow_le_pow_right (by norm_num) h
    have h2 : (1 : Nat) ≤ 2 ^ t := Nat.one_le_two_pow
    omega
  · rw [Nat.min_eq_right h]
    obtain ⟨q, hq1, _⟩ := two_pow_split u t h
    have hP : (1 : Nat) ≤ 2 ^ u := Nat.one_le_two_pow
    have hqs : 2 ^ u * (q + 1) - 1 = 2 ^ u * q + (2 ^ u - 1) := by
      rw [Nat.mul_add, Nat.mul_one]; omega
    rw [hq1, hqs, Nat.mul_add_mod, Nat.mod_eq_of_lt (by omega)]

theorem and_mask_mod (x t : Nat) : x &&& (2 ^ t - 1) = x % 2 ^ t :=
  Nat.and_pow_two_sub_one_eq_mod x t

theorem and255_eq (x : Nat) : x &&& 255 = x % 256 :=
  Nat.and_pow_two_sub_one_eq_mod x 8

theorem or_eq_add_of_aligned {a b k : Nat} (ha : a % 2 ^ k = 0) (hb : b < 2 ^ k) :
    a ||| b = a + b := by
  have hd : a = 2 ^ k * (a / 2 ^ k) := by
    conv_lhs => rw [← Nat.div_add_mod a (2 ^ k)]
    omega
  rw [hd, ← Nat.mul_add_lt_is_or hb]

theorem byte_window_congr {x y s : Nat} (h : x % 2 ^ (s + 8) = y % 2 ^ (s + 8)) :
    (x >>> s) % 256 = (y >>> s) % 256 := by
  have he : s + 8 - s = 8 := by omega
  have hx : (x % 2 ^ (s + 8)) >>> s = (x >>> s) % 2 ^ 8 := by
    rw [mod_pow_shiftRight, he]
  have hy : (y % 2 ^ (s + 8)) >>> s = (y >>> s) % 2 ^ 8 := by
    rw [mod_pow_shiftRight, he]
  have h28 : (2 : Nat) ^ 8 = 256 := by norm_num
  rw [← h28, ← hx, ← hy, h]

/-- Generic accumulator fold: `foldl (fun a b => a * base + f b) x l`
splits into the part contributed by `x` and the fold from zero. -/
theorem foldl_mulacc (base : Nat) (f : Nat → Nat) :
    ∀ (l : List Nat) (x : Nat),
      l.foldl (fun a b => a * base + f b) x =
        x * base ^ l.length + l.foldl (fun a b => a * base + f b) 0 := by
  intro l
  induction l with
  | nil => simp
  | cons b t ih =>
    intro x
    simp only [List.foldl_cons, List.length_cons]
    rw [ih (x * base + f b), ih (0 * base + f b)]
    ring

/-- The zero-based fold is bounded when each `f b < base`. -/
theorem foldl_mulacc_lt (base : Nat) (f : Nat → Nat) (hbase : 0 < base)
    (hf : ∀ b, f b < base) :
    ∀ l : List Nat, l.foldl (fun a b => a * base + f b) 0 < base ^ l.length := by
  intro l
  induction l with
  | nil => simpa using hbase
  | cons b t ih =>
    simp only [List.foldl_cons, List.length_cons]
    rw [foldl_mulacc, Nat.zero_mul, Nat.zero_add]
    have hfb := hf b
    have h1 : f b * base ^ t.length + base ^ t.length ≤ base ^ (t.length + 1) := by
      calc f b * base ^ t.length + base ^ t.length
          = (f b + 1) * base ^ t.length := by ring
        _ ≤ base * base ^ t.length := Nat.mul_le_mul_right _ (by omega)
        _ = base ^ (t.length + 1) := by ring
    omega

theorem bytesVal_cons (b : Nat) (l : List Nat) :
    bytesVal (b :: l) = b % 256 * 256 ^ l.length + bytesVal l := by
  simp only [bytesVal, List.foldl_cons]
  rw [foldl_mulacc]
  ring_nf

theorem bytesVal_lt (l : List Nat) : bytesVal l < 256 ^ l.length :=
  foldl_mulacc_lt 256 (· % 256) (by norm_num) (fun b => Nat.mod_lt _ (by norm_num)) l

/-- Extracting byte `i` (big-endian) from `bytesVal l`. -/
theorem bytesVal_getD (l : List Nat) :
    ∀ i, i < l.length →
      (bytesVal l >>> (8 * l.length - 8 * (i + 1))) % 256 = l.getD i 0 % 256 := by
  induction l with
  | nil => intro i hi; simp at hi
  | cons b t ih =>
    intro i hi
    rw [bytesVal_cons]
    cases i with
    | zero =>
      simp only [List.length_cons, List.getD_cons_zero]
      have hs : 8 * (t.length + 1) - 8 * (0 + 1) = 8 * t.length := by omega
      rw [hs, Nat.shiftRight_eq_div_pow, ← pow256_eq]
      have hb : bytesVal t < 256 ^ t.length := bytesVal_lt t
      have hp : 0 < (256 : Nat) ^ t.length := Nat.pos_pow_of_pos _ (by norm_num)
      rw [Nat.mul_comm (b % 256), Nat.mul_add_div hp, Nat.div_eq_of_lt hb,
        Nat.add_zero, Nat.mod_mod_of_dvd b (dvd_refl 256)]
    | succ j =>
      simp only [List.length_cons, List.getD_cons_succ]
      have hj : j < t.length := by simpa using hi
      have hs : 8 * (t.length + 1) - 8 * (j + 1 + 1) = 8 * t.length - 8 * (j + 1) := by
        omega
      rw [hs]
      have hdvd : (2 : Nat) ^ ((8 * t.length - 8 * (j + 1)) + 8) ∣ b % 256 * 256 ^ t.length := by
        rw [pow256_eq]
        exact Dvd.dvd.mul_left (pow_dvd_pow 2 (by omega)) _
      obtain ⟨c, hc⟩ := hdvd
      have hwin : (b % 256 * 256 ^ t.length + bytesVal t) %
          2 ^ ((8 * t.length - 8 * (j + 1)) + 8) = bytesVal t %
          2 ^ ((8 * t.length - 8 * (j + 1)) + 8) := by
        rw [hc, Nat.add_comm, Nat.add_mul_mod_self_left]
      rw [byte_window_congr hwin]
      exact ih j hj

/-! ### Bit-group view of a big-endian bit stream -/

/-- The big-endian `bitLen`-bit groups of the `nbits`-bit stream whose value
is `v` (as many full groups as fit; trailing bits are dropped). -/
def groupsOf (bitLen nbits v : Nat) : List Nat :=
  (List.range (nbits / bitLen)).map fun g =>
    (v >>> (nbits - (g + 1) * bitLen)) % 2 ^ bitLen

/-- The value of a concatenated `bitLen`-bit group stream. -/
def groupsVal (bitLen : Nat) (G : List Nat) : Nat :=
  G.foldl (fun a g => a * 2 ^ bitLen + g % 2 ^ bitLen) 0

theorem groupsOf_length (B n v : Nat) : (groupsOf B n v).length = n / B := by
  simp [groupsOf]

theorem groupsOf_lt {B n v : Nat} : ∀ g ∈ groupsOf B n v, g < 2 ^ B := by
  intro g hg
  simp only [groupsOf, List.mem_map] at hg
  obtain ⟨i, _, rfl⟩ := hg
  exact Nat.mod_lt _ (Nat.pos_pow_of_pos _ (by norm_num))

theorem groupsOf_succ {B n : Nat} (v : Nat) (hB : 0 < B) (h : B ≤ n) :
    groupsOf B n v = ((v >>> (n - B)) % 2 ^ B) :: groupsOf B (n - B) v := by
  have hn : n / B = (n - B) / B + 1 := by
    conv_lhs => rw [show n = n - B + B by omega]
    rw [Nat.add_div_right _ hB]
  have hsub : ∀ g : Nat, n - (g + 1 + 1) * B = n - B - (g + 1) * B := by
    intro g
    rw [Nat.sub_sub]
    congr 1
    ring
  simp only [groupsOf, hn, List.range_succ_eq_map, List.map_cons, List.map_map]
  congr 1
  · rw [Nat.one_mul]
  · apply List.map_congr_left
    intro g _
    simp only [Function.comp_apply, Nat.succ_eq_add_one]
    rw [hsub g]

theorem groupsOf_congr {B n x y : Nat} (h : x % 2 ^ n = y % 2 ^ n) :
    groupsOf B n x = groupsOf B n y := by
  unfold groupsOf
  apply List.map_congr_left
  intro g hg
  have hgB : (g + 1) * B ≤ n := by
    have h1 : g + 1 ≤ n / B := List.mem_range.mp hg
    calc (g + 1) * B ≤ n / B * B := Nat.mul_le_mul_right _ h1
      _ ≤ n := Nat.div_mul_le_self n B
  have hBm : B ≤ (g + 1) * B := by
    calc B = 1 * B := by ring
      _ ≤ (g + 1) * B := Nat.mul_le_mul_right _ (by omega)
  set m := (g + 1) * B with hm
  have key : ∀ z : Nat, (z >>> (n - m)) % 2 ^ B =
      ((z % 2 ^ n) >>> (n - m)) % 2 ^ B := by
    intro z
    rw [mod_pow_shiftRight]
    rw [mod_mod_pow_le _ (by omega)]
  rw [key x, key y, h]

theorem beBytes_length (w v : Nat) : (beBytes w v).length = w := by
  induction w with
  | zero => rfl
  | succ k ih => simp [beBytes, ih]

theorem beBytes_getD (w v : Nat) :
    ∀ i, i < w → (beBytes w v).getD i 0 = (v >>> (8 * (w - i - 1))) % 256 := by
  induction w with
  | zero => intro i hi; omega
  | succ k ih =>
    intro i hi
    cases i with
    | zero =>
      show (v >>> (8 * k)) % 256 = (v >>> (8 * (k + 1 - 0 - 1))) % 256
      congr 3 <;> omega
    | succ j =>
      show (beBytes k v).getD j 0 = (v >>> (8 * (k + 1 - (j + 1) - 1))) % 256
      rw [ih j (by omega)]
      congr 3 <;> omega

theorem bytesVal_beBytes (w v : Nat) : bytesVal (beBytes w v) = v % 2 ^ (8 * w) := by
  induction w with
  | zero => simp [beBytes, bytesVal, Nat.mod_one]
  | succ k ih =>
    show bytesVal ((v >>> (8 * k)) % 256 :: beBytes k v) = v % 2 ^ (8 * (k + 1))
    rw [bytesVal_cons, beBytes_length, ih,
      Nat.mod_mod_of_dvd _ (dvd_refl 256), pow256_eq, Nat.shiftRight_eq_div_pow]
    have he : (2 : Nat) ^ (8 * (k + 1)) = 2 ^ (8 * k) * 256 := by
      have h256 : (256 : Nat) = 2 ^ 8 := by norm_num
      rw [h256, ← pow_add]
      congr 1 <;> omega
    have hm := @Nat.mod_mul (2 ^ (8 * k)) 256 v
    have hc : v / 2 ^ (8 * k) % 256 * 2 ^ (8 * k) =
        2 ^ (8 * k) * (v / 2 ^ (8 * k) % 256) := Nat.mul_comm _ _
    rw [he]
    omega

/-- Head-byte extraction from an exact big-endian composition. -/
theorem shiftRight_exact_add {x r L : Nat} (hr : r < 2 ^ (8 * L)) :
    (x * 2 ^ (8 * L) + r) >>> (8 * L) = x := by
  rw [Nat.shiftRight_eq_div_pow, Nat.mul_comm,
    Nat.mul_add_div (Nat.pos_pow_of_pos _ (by norm_num)), Nat.div_eq_of_lt hr,
    Nat.add_zero]

/-! ### Characterization of expand_array as big-endian bit-group splitting -/

/-- One emitted byte of `expand_array` equals the corresponding big-endian
byte of the `bitLen`-bit group `(v >>> a) % 2 ^ bitLen`. -/
theorem emit_byte_eq (B a s v : Nat) :
    (v >>> (a + s)) &&& (((2 ^ B - 1) >>> s) &&& 255) =
      (((v >>> a) % 2 ^ B) >>> s) % 256 := by
  rw [two_pow_sub_one_shiftRight]
  have h1 : ((2 ^ (B - s) - 1) &&& 255) = 2 ^ min (B - s) 8 - 1 := by
    rw [show (255 : Nat) = 2 ^ 8 - 1 by norm_num, and_mask_mod, two_pow_sub_one_mod]
  rw [h1, and_mask_mod, mod_pow_shiftRight, ← Nat.shiftRight_add,
    show (256 : Nat) = 2 ^ 8 by norm_num]
  rcases Nat.le_total (B - s) 8 with h | h
  · rw [mod_mod_pow_ge _ h, Nat.min_eq_left h]
  · rw [mod_mod_pow_le _ h, Nat.min_eq_right h]

/-- `expandEmit` writes the padded big-endian bytes of the top pending group. -/
theorem expandEmit_eq (B pad ow a v : Nat) :
    expandEmit B pad ow a v =
      List.replicate pad 0 ++ beBytes (ow - pad) ((v >>> a) % 2 ^ B) := by
  unfold expandEmit
  congr 1
  apply List.ext_getElem
  · simp [beBytes_length]
  · intro i h1 h2
    simp only [List.getElem_map, List.getElem_range] at h1 ⊢
    have hi : i < ow - pad := by simpa using h1
    have hgetD : (beBytes (ow - pad) ((v >>> a) % 2 ^ B))[i] =
        (beBytes (ow - pad) ((v >>> a) % 2 ^ B)).getD i 0 := by
      rw [List.getD_eq_getElem?_getD, List.getElem?_eq_getElem h2]
      rfl
    rw [hgetD, beBytes_getD _ _ i hi]
    have hsub : ow - (pad + i) - 1 = ow - pad - i - 1 := by omega
    rw [hsub]
    exact emit_byte_eq B a (8 * (ow - pad - i - 1)) v

/-- Truncating the accumulator to `uint32` does not change the stream value
modulo any window of at most `32 + 8*L` bits. -/
theorem val_truncation_congr (X r L M : Nat) (hM : M ≤ 32 + 8 * L) :
    (X * 256 ^ L + r) % 2 ^ M = (X % 2 ^ 32 * 256 ^ L + r) % 2 ^ M := by
  rw [pow256_eq]
  conv_lhs => rw [← Nat.mod_add_div X (2 ^ 32)]
  have heq : (X % 2 ^ 32 + 2 ^ 32 * (X / 2 ^ 32)) * 2 ^ (8 * L) + r =
      X % 2 ^ 32 * 2 ^ (8 * L) + r + 2 ^ (32 + 8 * L) * (X / 2 ^ 32) := by
    rw [pow_add]
    ring
  rw [heq]
  obtain ⟨c, hc⟩ : (2 : Nat) ^ M ∣ 2 ^ (32 + 8 * L) * (X / 2 ^ 32) :=
    Dvd.dvd.mul_right (pow_dvd_pow 2 hM) _
  rw [hc, Nat.add_mul_mod_self_left]

/-- The `expand_array` loop splits the big-endian bit stream
(pending accumulator bits followed by the input bytes) into `bitLen`-bit
groups, each written as `byte_pad` zeros plus its big-endian bytes. -/
theorem expandLoop_eq (B pad ow : Nat) (h8 : 8 ≤ B) (hB : B ≤ 25) :
    ∀ (l : List Nat) (a v : Nat), a < B →
      expandLoop B pad ow l a v =
        ((groupsOf B (a + 8 * l.length) (v * 256 ^ l.length + bytesVal l)).map
          (fun g => List.replicate pad 0 ++ beBytes (ow - pad) g)).flatten := by
  intro l
  induction l with
  | nil =>
    intro a v ha
    have h0 : a / B = 0 := Nat.div_eq_of_lt ha
    simp [expandLoop, groupsOf, h0]
  | cons b rest ih =>
    intro a v ha
    have hL : (b :: rest).length = rest.length + 1 := rfl
    set L := rest.length with hLdef
    have hbv : bytesVal (b :: rest) = b % 256 * 256 ^ L + bytesVal rest :=
      bytesVal_cons b rest
    have hVeq : v * 256 ^ (b :: rest).length + bytesVal (b :: rest) =
        (v * 256 + b % 256) * 256 ^ L + bytesVal rest := by
      rw [hL, hbv, pow_succ]
      ring
    set X := v * 256 + b % 256 with hXdef
    set r := bytesVal rest with hrdef
    have hrlt : r < 2 ^ (8 * L) := by
      rw [hrdef, ← pow256_eq]
      exact bytesVal_lt rest
    by_cases hc : B ≤ a + 8
    · -- a group is emitted
      have hstep : expandLoop B pad ow (b :: rest) a v =
          expandEmit B pad ow (a + 8 - B) (X % 2 ^ 32) ++
            expandLoop B pad ow rest (a + 8 - B) (X % 2 ^ 32) := by
        simp only [expandLoop, hc, if_pos]
      rw [hstep, ih (a + 8 - B) (X % 2 ^ 32) (by omega), hVeq]
      have hnbits : a + 8 * (b :: rest).length = (a + 8) + 8 * L := by
        rw [hL]; ring
      rw [hnbits]
      have hsucc := groupsOf_succ (B := B) (n := (a + 8) + 8 * L)
        (X * 256 ^ L + r) (by omega) (by omega)
      rw [hsucc]
      simp only [List.map_cons, List.flatten_cons]
      have hVshift : (X * 256 ^ L + r) >>> ((a + 8) + 8 * L - B) =
          X >>> (a + 8 - B) := by
        have hd : (a + 8) + 8 * L - B = 8 * L + (a + 8 - B) := by omega
        rw [hd, Nat.shiftRight_add, pow256_eq, shiftRight_exact_add hrlt]
      have hhead : (X * 256 ^ L + r) >>> ((a + 8) + 8 * L - B) % 2 ^ B =
          (X % 2 ^ 32) >>> (a + 8 - B) % 2 ^ B := by
        rw [hVshift, mod_pow_shiftRight, mod_mod_pow_le _ (by omega)]
      have htail : groupsOf B ((a + 8) + 8 * L - B) (X * 256 ^ L + r) =
          groupsOf B ((a + 8 - B) + 8 * L) (X % 2 ^ 32 * 256 ^ L + r) := by
        have hM : (a + 8) + 8 * L - B = (a + 8 - B) + 8 * L := by omega
        rw [hM]
        exact groupsOf_congr (val_truncation_congr X r L _ (by omega))
      rw [hhead, htail, expandEmit_eq]
    · -- not enough bits yet
      have hstep : expandLoop B pad ow (b :: rest) a v =
          expandLoop B pad ow rest (a + 8) (X % 2 ^ 32) := by
        simp only [expandLoop, hc, if_neg, not_false_iff]
      rw [hstep, ih (a + 8) (X % 2 ^ 32) (by omega), hVeq]
      have hnbits : a + 8 * (b :: rest).length = (a + 8) + 8 * L := by
        rw [hL]; ring
      rw [hnbits]
      congr 1
      congr 1
      exact (groupsOf_congr (val_truncation_congr X r L _ (by omega))).symm

/-- `expand_array` on an `in_len`-byte input writes, for each full
`bit_len`-bit group of the input bit stream, `byte_pad` zeros followed by
the group's big-endian bytes. -/
theorem expand_array_eq (B pad : Nat) (h8 : 8 ≤ B) (hB : B ≤ 25) (s : List Nat) :
    expand_array s B pad =
      ((groupsOf B (8 * s.length) (bytesVal s)).map
        (fun g => List.replicate pad 0 ++
          beBytes ((B + 7) / 8 + pad - pad) g)).flatten := by
  unfold expand_array
  rw [expandLoop_eq B pad ((B + 7) / 8 + pad) h8 hB s 0 0 (by omega)]
  simp

/-! ### Characterization of CompressArray as big-endian bit-group packing -/

theorem mod_pow_split (w u t : Nat) :
    w % 2 ^ (u + t) = (w >>> u) % 2 ^ t * 2 ^ u + w % 2 ^ u := by
  have he : (2 : Nat) ^ (u + t) = 2 ^ u * 2 ^ t := by rw [← pow_add]
  have hm := @Nat.mod_mul (2 ^ u) (2 ^ t) w
  have hc : 2 ^ u * (w / 2 ^ u % 2 ^ t) = w / 2 ^ u % 2 ^ t * 2 ^ u :=
    Nat.mul_comm _ _
  rw [he, Nat.shiftRight_eq_div_pow]
  omega

theorem aligned_mod_zero {a B b : Nat} (ha : a % 2 ^ B = 0) (hb : b ≤ B) :
    a % 2 ^ b = 0 := by
  have hd : (2 : Nat) ^ b ∣ 2 ^ B := pow_dvd_pow 2 hb
  have h1 : (2 : Nat) ^ B ∣ a := Nat.dvd_of_mod_eq_zero ha
  obtain ⟨c, hc⟩ := hd.trans h1
  rw [hc]
  exact Nat.mul_mod_right _ _

theorem mask255 (B s : Nat) :
    ((2 ^ B - 1) >>> s) &&& 255 = 2 ^ min (B - s) 8 - 1 := by
  rw [two_pow_sub_one_shiftRight, show (255 : Nat) = 2 ^ 8 - 1 by norm_num,
    and_mask_mod, two_pow_sub_one_mod]

/-- One masked-and-shifted byte read by `CompressArray`. -/
theorem piece_eq (B s y : Nat) :
    (y % 256 &&& (((2 ^ B - 1) >>> s) &&& 255)) <<< s =
      y % 2 ^ min (B - s) 8 * 2 ^ s := by
  rw [mask255, and_mask_mod, show (256 : Nat) = 2 ^ 8 by norm_num,
    mod_mod_pow_le _ (min_le_right _ _), Nat.shiftLeft_eq]

theorem byte_sub {y z : Nat} (m : Nat) (hm : m ≤ 8) (h : y % 256 = z % 256) :
    y % 2 ^ m = z % 2 ^ m := by
  rw [show (256 : Nat) = 2 ^ 8 by norm_num] at h
  rw [← mod_mod_pow_le y hm, ← mod_mod_pow_le z hm, h]

theorem mod_mul_pow_lt (x t s : Nat) : x % 2 ^ t * 2 ^ s < 2 ^ (t + s) := by
  rw [pow_add]
  exact (Nat.mul_lt_mul_right (Nat.pos_pow_of_pos s (by norm_num))).mpr
    (Nat.mod_lt _ (Nat.pos_pow_of_pos t (by norm_num)))

theorem add_aligned_mod_zero {a b k : Nat} (ha : a % 2 ^ k = 0) (hb : b % 2 ^ k = 0) :
    (a + b) % 2 ^ k = 0 := by
  obtain ⟨p, hp⟩ := Nat.dvd_of_mod_eq_zero ha
  obtain ⟨q, hq⟩ := Nat.dvd_of_mod_eq_zero hb
  rw [hp, hq, ← Nat.mul_add]
  exact Nat.mul_mod_right _ _

/-- Reading a 4-byte big-endian group via the masked-OR loop of
`CompressArray` adds the low `bitLen` bits of the stored value to the
(`bitLen`-aligned) accumulator. -/
theorem compressRead_eq (B : Nat) (h8 : 8 <= B) (hB : B <= 25)
    (input : List Nat) (j w acc : Nat)
    (hseg : forall x, x < 4 -> input.getD (j + x) 0 % 256 = (w >>> (8 * (4 - x - 1))) % 256)
    (hacc : acc % 2 ^ B = 0) :
    compressRead B (4 - (B + 7) / 8) 4 input j acc = acc + w % 2 ^ B := by
  have hc4 : (B + 7) / 8 = 1 \/ (B + 7) / 8 = 2 \/ (B + 7) / 8 = 3 \/ (B + 7) / 8 = 4 := by
    omega
  rcases hc4 with hc | hc | hc | hc
  · -- one input byte: B = 8
    have hb8 : B = 8 := by omega
    subst hb8
    have h3 := hseg 3 (by norm_num)
    rw [show (8 : Nat) * (4 - 3 - 1) = 0 from rfl, Nat.shiftRight_zero] at h3
    simp only [compressRead, hc]
    rw [show (4 : Nat) - (4 - 1) = 1 from rfl, show List.range 1 = [0] from rfl]
    simp only [List.foldl_cons, List.foldl_nil]
    rw [piece_eq, show (8 : Nat) * (4 - (4 - 1 + 0) - 1) = 0 from rfl,
      show (4 : Nat) - 1 + 0 = 3 from rfl, Nat.sub_zero, pow_zero, Nat.mul_one,
      Nat.min_self, byte_sub 8 (le_refl 8) h3]
    exact or_eq_add_of_aligned hacc (Nat.mod_lt _ (by norm_num))
  · -- two input bytes: 9 <= B <= 16
    have hr : 9 <= B /\ B <= 16 := by omega
    have h2 := hseg 2 (by norm_num)
    have h3 := hseg 3 (by norm_num)
    rw [show (8 : Nat) * (4 - 2 - 1) = 8 from rfl] at h2
    rw [show (8 : Nat) * (4 - 3 - 1) = 0 from rfl, Nat.shiftRight_zero] at h3
    simp only [compressRead, hc]
    rw [show (4 : Nat) - (4 - 2) = 2 from rfl, show List.range 2 = [0, 1] from rfl]
    simp only [List.foldl_cons, List.foldl_nil]
    rw [piece_eq, piece_eq,
      show (8 : Nat) * (4 - (4 - 2 + 0) - 1) = 8 from rfl,
      show (8 : Nat) * (4 - (4 - 2 + 1) - 1) = 0 from rfl,
      show (4 : Nat) - 2 + 0 = 2 from rfl, show (4 : Nat) - 2 + 1 = 3 from rfl,
      Nat.sub_zero, pow_zero, Nat.mul_one,
      Nat.min_eq_left (show B - 8 <= 8 by omega), Nat.min_eq_right h8,
      byte_sub (B - 8) (by omega) h2, byte_sub 8 (le_refl 8) h3]
    have hp1lt : (w >>> 8) % 2 ^ (B - 8) * 2 ^ 8 < 2 ^ B := by
      have h := mod_mul_pow_lt (w >>> 8) (B - 8) 8
      have he : B - 8 + 8 = B := by omega
      rwa [he] at h
    rw [or_eq_add_of_aligned hacc hp1lt]
    have ha8 : (acc + (w >>> 8) % 2 ^ (B - 8) * 2 ^ 8) % 2 ^ 8 = 0 :=
      add_aligned_mod_zero (aligned_mod_zero hacc (by omega)) (Nat.mul_mod_left _ _)
    rw [or_eq_add_of_aligned ha8 (Nat.mod_lt _ (by norm_num))]
    have hs1 := mod_pow_split w 8 (B - 8)
    have he : 8 + (B - 8) = B := by omega
    rw [he] at hs1
    omega
  · -- three input bytes: 17 <= B <= 24
    have hr : 17 <= B /\ B <= 24 := by omega
    have h1 := hseg 1 (by norm_num)
    have h2 := hseg 2 (by norm_num)
    have h3 := hseg 3 (by norm_num)
    rw [show (8 : Nat) * (4 - 1 - 1) = 16 from rfl] at h1
    rw [show (8 : Nat) * (4 - 2 - 1) = 8 from rfl] at h2
    rw [show (8 : Nat) * (4 - 3 - 1) = 0 from rfl, Nat.shiftRight_zero] at h3
    simp only [compressRead, hc]
    rw [show (4 : Nat) - (4 - 3) = 3 from rfl, show List.range 3 = [0, 1, 2] from rfl]
    simp only [List.foldl_cons, List.foldl_nil]
    rw [piece_eq, piece_eq, piece_eq,
      show (8 : Nat) * (4 - (4 - 3 + 0) - 1) = 16 from rfl,
      show (8 : Nat) * (4 - (4 - 3 + 1) - 1) = 8 from rfl,
      show (8 : Nat) * (4 - (4 - 3 + 2) - 1) = 0 from rfl,
      show (4 : Nat) - 3 + 0 = 1 from rfl, show (4 : Nat) - 3 + 1 = 2 from rfl,
      show (4 : Nat) - 3 + 2 = 3 from rfl,
      Nat.sub_zero, pow_zero, Nat.mul_one,
      Nat.min_eq_left (show B - 16 <= 8 by omega),
      Nat.min_eq_right (show 8 <= B - 8 by omega), Nat.min_eq_right h8,
      byte_sub (B - 16) (by omega) h1, byte_sub 8 (le_refl 8) h2,
      byte_sub 8 (le_refl 8) h3]
    have hp1lt : (w >>> 16) % 2 ^ (B - 16) * 2 ^ 16 < 2 ^ B := by
      have h := mod_mul_pow_lt (w >>> 16) (B - 16) 16
      have he : B - 16 + 16 = B := by omega
      rwa [he] at h
    rw [or_eq_add_of_aligned hacc hp1lt]
    have ha16 : (acc + (w >>> 16) % 2 ^ (B - 16) * 2 ^ 16) % 2 ^ 16 = 0 :=
      add_aligned_mod_zero (aligned_mod_zero hacc (by omega)) (Nat.mul_mod_left _ _)
    rw [or_eq_add_of_aligned ha16 (mod_mul_pow_lt (w >>> 8) 8 8)]
    have hx16 : (w >>> 16) % 2 ^ (B - 16) * 2 ^ 16 =
        (w >>> 16) % 2 ^ (B - 16) * 2 ^ 8 * 2 ^ 8 := by ring
    have hmid : (w >>> 16) % 2 ^ (B - 16) * 2 ^ 16 % 2 ^ 8 = 0 := by
      rw [hx16]
      exact Nat.mul_mod_left _ _
    have ha8 : (acc + (w >>> 16) % 2 ^ (B - 16) * 2 ^ 16 +
        (w >>> 8) % 2 ^ 8 * 2 ^ 8) % 2 ^ 8 = 0 :=
      add_aligned_mod_zero (add_aligned_mod_zero
        (aligned_mod_zero hacc (by omega)) hmid) (Nat.mul_mod_left _ _)
    rw [or_eq_add_of_aligned ha8 (Nat.mod_lt _ (by norm_num))]
    have hs1 := mod_pow_split w 16 (B - 16)
    have he : 16 + (B - 16) = B := by omega
    rw [he] at hs1
    have hs2 := mod_pow_split w 8 8
    norm_num at hs2
    omega
  · -- four input bytes: B = 25
    have hb25 : B = 25 := by omega
    subst hb25
    have h0 := hseg 0 (by norm_num)
    have h1 := hseg 1 (by norm_num)
    have h2 := hseg 2 (by norm_num)
    have h3 := hseg 3 (by norm_num)
    rw [show (8 : Nat) * (4 - 0 - 1) = 24 from rfl] at h0
    rw [show (8 : Nat) * (4 - 1 - 1) = 16 from rfl] at h1
    rw [show (8 : Nat) * (4 - 2 - 1) = 8 from rfl] at h2
    rw [show (8 : Nat) * (4 - 3 - 1) = 0 from rfl, Nat.shiftRight_zero] at h3
    simp only [compressRead, hc]
    rw [show (4 : Nat) - (4 - 4) = 4 from rfl, show List.range 4 = [0, 1, 2, 3] from rfl]
    simp only [List.foldl_cons, List.foldl_nil]
    rw [piece_eq, piece_eq, piece_eq, piece_eq,
      show (8 : Nat) * (4 - (4 - 4 + 0) - 1) = 24 from rfl,
      show (8 : Nat) * (4 - (4 - 4 + 1) - 1) = 16 from rfl,
      show (8 : Nat) * (4 - (4 - 4 + 2) - 1) = 8 from rfl,
      show (8 : Nat) * (4 - (4 - 4 + 3) - 1) = 0 from rfl,
      show (4 : Nat) - 4 + 0 = 0 from rfl, show (4 : Nat) - 4 + 1 = 1 from rfl,
      show (4 : Nat) - 4 + 2 = 2 from rfl, show (4 : Nat) - 4 + 3 = 3 from rfl,
      Nat.sub_zero, pow_zero, Nat.mul_one,
      show min (25 - 24) 8 = 1 from rfl, show min (25 - 16) 8 = 8 from rfl,
      show min (25 - 8) 8 = 8 from rfl, show min 25 8 = 8 from rfl,
      byte_sub 1 (by norm_num) h0, byte_sub 8 (le_refl 8) h1,
      byte_sub 8 (le_refl 8) h2, byte_sub 8 (le_refl 8) h3]
    have hp0lt : (w >>> 24) % 2 ^ 1 * 2 ^ 24 < 2 ^ 25 := mod_mul_pow_lt (w >>> 24) 1 24
    rw [or_eq_add_of_aligned hacc hp0lt]
    have hx24a : (w >>> 24) % 2 ^ 1 * 2 ^ 24 = (w >>> 24) % 2 ^ 1 * 2 ^ 8 * 2 ^ 16 := by
      ring
    have hx24b : (w >>> 24) % 2 ^ 1 * 2 ^ 24 = (w >>> 24) % 2 ^ 1 * 2 ^ 16 * 2 ^ 8 := by
      ring
    have hx16 : (w >>> 16) % 2 ^ 8 * 2 ^ 16 = (w >>> 16) % 2 ^ 8 * 2 ^ 8 * 2 ^ 8 := by
      ring
    have ha24 : (acc + (w >>> 24) % 2 ^ 1 * 2 ^ 24) % 2 ^ 24 = 0 :=
      add_aligned_mod_zero (aligned_mod_zero hacc (by omega)) (Nat.mul_mod_left _ _)
    have hp1lt : (w >>> 16) % 2 ^ 8 * 2 ^ 16 < 2 ^ 24 :=
      Nat.lt_of_lt_of_eq (mod_mul_pow_lt (w >>> 16) 8 16) (by norm_num)
    rw [or_eq_add_of_aligned ha24 hp1lt]
    have hm24a : (w >>> 24) % 2 ^ 1 * 2 ^ 24 % 2 ^ 16 = 0 := by
      rw [hx24a]
      exact Nat.mul_mod_left _ _
    have ha16 : (acc + (w >>> 24) % 2 ^ 1 * 2 ^ 24 +
        (w >>> 16) % 2 ^ 8 * 2 ^ 16) % 2 ^ 16 = 0 :=
      add_aligned_mod_zero (add_aligned_mod_zero
        (aligned_mod_zero hacc (by omega)) hm24a) (Nat.mul_mod_left _ _)
    have hp2lt : (w >>> 8) % 2 ^ 8 * 2 ^ 8 < 2 ^ 16 :=
      Nat.lt_of_lt_of_eq (mod_mul_pow_lt (w >>> 8) 8 8) (by norm_num)
    rw [or_eq_add_of_aligned ha16 hp2lt]
    have hm24b : (w >>> 24) % 2 ^ 1 * 2 ^ 24 % 2 ^ 8 = 0 := by
      rw [hx24b]
      exact Nat.mul_mod_left _ _
    have hm16 : (w >>> 16) % 2 ^ 8 * 2 ^ 16 % 2 ^ 8 = 0 := by
      rw [hx16]
      exact Nat.mul_mod_left _ _
    have ha8b : (acc + (w >>> 24) % 2 ^ 1 * 2 ^ 24 + (w >>> 16) % 2 ^ 8 * 2 ^ 16 +
        (w >>> 8) % 2 ^ 8 * 2 ^ 8) % 2 ^ 8 = 0 :=
      add_aligned_mod_zero (add_aligned_mod_zero (add_aligned_mod_zero
        (aligned_mod_zero hacc (by omega)) hm24b) hm16) (Nat.mul_mod_left _ _)
    rw [or_eq_add_of_aligned ha8b (Nat.mod_lt _ (by norm_num))]
    have hs1 := mod_pow_split w 24 1
    have hs2 := mod_pow_split w 16 8
    have hs3 := mod_pow_split w 8 8
    norm_num at hs1 hs2 hs3
    omega

theorem groupsVal_cons (B g : Nat) (G : List Nat) :
    groupsVal B (g :: G) = g % 2 ^ B * 2 ^ (B * G.length) + groupsVal B G := by
  simp only [groupsVal, List.foldl_cons]
  rw [foldl_mulacc, pow_mul]
  ring

theorem groupsVal_lt (B : Nat) (G : List Nat) :
    groupsVal B G < 2 ^ (B * G.length) := by
  have h := foldl_mulacc_lt (2 ^ B) (· % 2 ^ B)
    (Nat.pos_pow_of_pos _ (by norm_num))
    (fun b => Nat.mod_lt _ (Nat.pos_pow_of_pos _ (by norm_num))) G
  simpa only [groupsVal, pow_mul] using h

/-- `beBytes` only depends on the low `8*w` bits of the value. -/
theorem beBytes_congr {x y : Nat} : ∀ {w : Nat},
    x % 2 ^ (8 * w) = y % 2 ^ (8 * w) → beBytes w x = beBytes w y := by
  intro w
  induction w with
  | zero => intro _; rfl
  | succ u ih =>
    intro h
    rw [show 8 * (u + 1) = 8 * u + 8 from by ring] at h
    have hhead : (x >>> (8 * u)) % 256 = (y >>> (8 * u)) % 256 :=
      byte_window_congr h
    have htail : x % 2 ^ (8 * u) = y % 2 ^ (8 * u) := by
      rw [← mod_mod_pow_le x (show 8 * u ≤ 8 * u + 8 by omega), h,
        mod_mod_pow_le y (show 8 * u ≤ 8 * u + 8 by omega)]
    simp only [beBytes]
    rw [hhead, ih htail]

/-- Emitting the top byte of a pending/groups bit stream: the byte at bit
offset `8*m` of `W % 2^p` followed by `BL` group bits is byte `p-8` of `W`. -/
theorem pending_stream_head (W p BL gv m : Nat) (hp : 8 ≤ p)
    (hm : 8 * m = p - 8 + BL) (hgv : gv < 2 ^ BL) :
    ((W % 2 ^ p * 2 ^ BL + gv) >>> (8 * m)) % 256 = (W >>> (p - 8)) % 256 := by
  have hpos : 0 < (2 : Nat) ^ BL := Nat.pos_pow_of_pos _ (by norm_num)
  have hdiv : (W % 2 ^ p * 2 ^ BL + gv) / 2 ^ BL = W % 2 ^ p := by
    rw [Nat.mul_comm (W % 2 ^ p), Nat.mul_add_div hpos, Nat.div_eq_of_lt hgv,
      Nat.add_zero]
  rw [hm, Nat.add_comm (p - 8) BL, Nat.shiftRight_add,
    Nat.shiftRight_eq_div_pow _ BL, hdiv, mod_pow_shiftRight,
    show p - (p - 8) = 8 from by omega,
    show (2 : Nat) ^ 8 = 256 from by norm_num,
    Nat.mod_mod_of_dvd _ (dvd_refl 256)]

/-- Dropping the top byte of the pending bits does not change the low `8*m`
stream bits. -/
theorem pending_stream_tail (W p BL gv m : Nat) (hp : 8 ≤ p)
    (hm : 8 * m = p - 8 + BL) (hgv : gv < 2 ^ BL) :
    beBytes m (W % 2 ^ (p - 8) * 2 ^ BL + gv) =
      beBytes m (W % 2 ^ p * 2 ^ BL + gv) := by
  apply beBytes_congr
  have hq : W % 2 ^ p = 2 ^ (p - 8) * (W % 2 ^ p / 2 ^ (p - 8)) + W % 2 ^ (p - 8) := by
    conv_lhs => rw [← Nat.div_add_mod (W % 2 ^ p) (2 ^ (p - 8))]
    rw [mod_mod_pow_le W (by omega)]
  have hS : W % 2 ^ p * 2 ^ BL + gv =
      W % 2 ^ (p - 8) * 2 ^ BL + gv + W % 2 ^ p / 2 ^ (p - 8) * 2 ^ (8 * m) := by
    rw [hm, pow_add]
    conv_lhs => rw [hq]
    ring
  rw [hS, Nat.add_mul_mod_self_right]

/-- The main loop of `CompressArray`, exactly: with `a` pending accumulator
bits, the remaining group words `G` (each below `2^B`) laid out as 4-byte
big-endian windows of `input` from offset `j`, and a total of `8*n` bits
left, the `n` bytes written are the big-endian bytes of the bit stream
formed by the pending bits followed by the concatenated `B`-bit groups. -/
theorem compressLoop_exact (B : Nat) (h8 : 8 ≤ B) (hB : B ≤ 25)
    (input : List Nat) :
    ∀ (n : Nat) (G : List Nat) (j a v : Nat),
      8 * n = a + B * G.length →
      (∀ g ∈ G, g < 2 ^ B) →
      (∀ k, k < G.length → ∀ x, x < 4 →
        input.getD (j + (4 * k + x)) 0 % 256 =
          (G.getD k 0 >>> (8 * (4 - x - 1))) % 256) →
      compressLoop B (4 - (B + 7) / 8) 4 input n j a v =
        beBytes n (v % 2 ^ a * 2 ^ (B * G.length) + groupsVal B G) := by
  intro n
  induction n with
  | zero => intro G j a v _ _ _; rfl
  | succ m ih =>
    intro G j a v hbits hlt hseg
    simp only [compressLoop]
    by_cases hlt8 : a < 8
    · rw [if_pos hlt8]
      obtain ⟨g, G', rfl⟩ : ∃ g G', G = g :: G' := by
        cases G with
        | nil => simp at hbits; omega
        | cons g G' => exact ⟨g, G', rfl⟩
      have hg : g < 2 ^ B := hlt g (List.mem_cons_self _ _)
      have hseg0 : ∀ x, x < 4 →
          input.getD (j + x) 0 % 256 = (g >>> (8 * (4 - x - 1))) % 256 := by
        intro x hx
        have h0 := hseg 0 (by simp) x hx
        simpa using h0
      have hacc0 : (v <<< B) % 2 ^ 32 % 2 ^ B = 0 := by
        rw [Nat.mod_mod_of_dvd _ (pow_dvd_pow 2 (show B ≤ 32 by omega)),
          Nat.shiftLeft_eq, Nat.mul_mod_left]
      have hread := compressRead_eq B h8 hB input j g ((v <<< B) % 2 ^ 32)
        hseg0 hacc0
      rw [hread]
      have hmul : B * (G'.length + 1) = B * G'.length + B := by ring
      have hbits' : 8 * m = (a + B - 8) + B * G'.length := by
        simp only [List.length_cons] at hbits
        rw [hmul] at hbits
        omega
      have hlt' : ∀ g' ∈ G', g' < 2 ^ B :=
        fun g' hg' => hlt g' (List.mem_cons_of_mem _ hg')
      have hseg' : ∀ k, k < G'.length → ∀ x, x < 4 →
          input.getD (j + 4 + (4 * k + x)) 0 % 256 =
            (G'.getD k 0 >>> (8 * (4 - x - 1))) % 256 := by
        intro k hk x hx
        have h1 := hseg (k + 1) (by simp only [List.length_cons]; omega) x hx
        rw [show j + (4 * (k + 1) + x) = j + 4 + (4 * k + x) from by ring] at h1
        simpa using h1
      rw [ih G' (j + 4) (a + B - 8) ((v <<< B) % 2 ^ 32 + g % 2 ^ B)
        hbits' hlt' hseg']
      have hkey : ((v <<< B) % 2 ^ 32 + g % 2 ^ B) % 2 ^ (a + B) =
          v % 2 ^ a * 2 ^ B + g % 2 ^ B := by
        have h32 : a + B ≤ 32 := by omega
        have h1 : ((v <<< B) % 2 ^ 32 + g % 2 ^ B) % 2 ^ (a + B) =
            (v <<< B + g % 2 ^ B) % 2 ^ (a + B) := by
          rw [Nat.add_mod, mod_mod_pow_le _ h32, ← Nat.add_mod]
        rw [h1, Nat.shiftLeft_eq, pow_add, Nat.add_mod, Nat.mul_mod_mul_right]
        have hglt : g % 2 ^ B < 2 ^ B :=
          Nat.mod_lt _ (Nat.pos_pow_of_pos _ (by norm_num))
        have hgsm : g % 2 ^ B % (2 ^ a * 2 ^ B) = g % 2 ^ B :=
          Nat.mod_eq_of_lt (lt_of_lt_of_le hglt
            (Nat.le_mul_of_pos_left _ (Nat.pos_pow_of_pos _ (by norm_num))))
        rw [hgsm]
        have hva : v % 2 ^ a < 2 ^ a := Nat.mod_lt _ (Nat.pos_pow_of_pos _ (by norm_num))
        have hmul2 : (v % 2 ^ a + 1) * 2 ^ B ≤ 2 ^ a * 2 ^ B :=
          Nat.mul_le_mul_right _ (by omega)
        have hexp : (v % 2 ^ a + 1) * 2 ^ B = v % 2 ^ a * 2 ^ B + 2 ^ B := by ring
        have hglt2 : g % 2 ^ B < 2 ^ B := hglt
        exact Nat.mod_eq_of_lt (by omega)
      have hSrw : v % 2 ^ a * 2 ^ (B * (g :: G').length) + groupsVal B (g :: G') =
          ((v <<< B) % 2 ^ 32 + g % 2 ^ B) % 2 ^ (a + B) * 2 ^ (B * G'.length) +
            groupsVal B G' := by
        rw [groupsVal_cons, hkey, List.length_cons, hmul, pow_add]
        ring
      rw [hSrw]
      simp only [beBytes]
      congr 1
      · rw [and255_eq]
        exact (pending_stream_head ((v <<< B) % 2 ^ 32 + g % 2 ^ B) (a + B)
          (B * G'.length) (groupsVal B G') m (by omega) hbits'
          (groupsVal_lt B G')).symm
      · exact pending_stream_tail ((v <<< B) % 2 ^ 32 + g % 2 ^ B) (a + B)
          (B * G'.length) (groupsVal B G') m (by omega) hbits'
          (groupsVal_lt B G')
    · rw [if_neg hlt8]
      have hge : 8 ≤ a := by omega
      have hbits' : 8 * m = (a - 8) + B * G.length := by omega
      rw [ih G j (a - 8) v hbits' hlt hseg]
      simp only [beBytes]
      congr 1
      · rw [and255_eq]
        exact (pending_stream_head v a (B * G.length) (groupsVal B G) m hge
          hbits' (groupsVal_lt B G)).symm
      · exact pending_stream_tail v a (B * G.length) (groupsVal B G) m hge
          hbits' (groupsVal_lt B G)

/-! ### Assembling the codec round-trip -/

theorem flatten_const_length (c : Nat) :
    ∀ M : List (List Nat), (∀ l ∈ M, l.length = c) →
      M.flatten.length = c * M.length := by
  intro M
  induction M with
  | nil => intro _; simp
  | cons l t ih =>
    intro h
    simp only [List.flatten_cons, List.length_append, List.length_cons,
      h l (List.mem_cons_self _ _), ih (fun l' hl' => h l' (List.mem_cons_of_mem _ hl'))]
    ring

theorem flatten_drop_const (c : Nat) :
    ∀ (M : List (List Nat)) (i : Nat), (∀ l ∈ M, l.length = c) →
      M.flatten.drop (c * i) = (M.drop i).flatten := by
  intro M
  induction M with
  | nil => intro i _; simp
  | cons l t ih =>
    intro i h
    cases i with
    | zero => simp
    | succ k =>
      have hl : l.length = c := h l (List.mem_cons_self _ _)
      have hck : c * (k + 1) = l.length + c * k := by rw [hl]; ring
      simp only [List.flatten_cons, List.drop_succ_cons, hck, List.drop_append]
      exact ih k (fun l' hl' => h l' (List.mem_cons_of_mem _ hl'))

theorem flatten_getD_const (c : Nat) :
    ∀ (M : List (List Nat)) (k x : Nat), (∀ l ∈ M, l.length = c) →
      k < M.length → x < c →
      M.flatten.getD (c * k + x) 0 = (M.getD k []).getD x 0 := by
  intro M
  induction M with
  | nil => intro k x _ hk _; simp at hk
  | cons l t ih =>
    intro k x h hk hx
    have hl : l.length = c := h l (List.mem_cons_self _ _)
    cases k with
    | zero =>
      simp only [List.flatten_cons, List.getD_cons_zero, Nat.mul_zero, Nat.zero_add]
      exact List.getD_append l t.flatten 0 x (by omega)
    | succ m =>
      have hck : c * (m + 1) + x = l.length + (c * m + x) := by rw [hl]; ring
      simp only [List.flatten_cons, List.getD_cons_succ, hck]
      rw [List.getD_append_right l t.flatten 0 _ (by omega),
        Nat.add_sub_cancel_left]
      exact ih m x (fun l' hl' => h l' (List.mem_cons_of_mem _ hl')) (by simpa using hk) hx

theorem bytesVal_replicate_zero (p : Nat) (l : List Nat) :
    bytesVal (List.replicate p 0 ++ l) = bytesVal l := by
  induction p with
  | zero => rfl
  | succ q ih => simpa [bytesVal, List.replicate_succ] using ih

theorem array_to_index_eq_bytesVal (l : List Nat) (h : l.length = 4) :
    array_to_index l = bytesVal l := by
  match l, h with
  | [a, b, c, d], _ =>
    simp [array_to_index, bytesVal, List.getD]

theorem array_to_index_append4 (l r : List Nat) (h : l.length = 4) :
    array_to_index (l ++ r) = array_to_index l := by
  match l, h with
  | [a, b, c, d], _ => rfl

/-- Leading-zero-padded big-endian bytes decode back to the group value. -/
theorem array_to_index_chunk (pad q g : Nat) (hpq : pad + q = 4)
    (hg : g < 2 ^ (8 * q)) :
    array_to_index (List.replicate pad 0 ++ beBytes q g) = g := by
  have hlen : (List.replicate pad 0 ++ beBytes q g).length = 4 := by
    simp [beBytes_length, hpq]
  rw [array_to_index_eq_bytesVal _ hlen, bytesVal_replicate_zero,
    bytesVal_beBytes, Nat.mod_eq_of_lt hg]

/-- A byte list (all elements below 256) is recovered from its value. -/
theorem beBytes_bytesVal :
    ∀ s : List Nat, (∀ b ∈ s, b < 256) → beBytes s.length (bytesVal s) = s := by
  intro s
  induction s with
  | nil => intro _; rfl
  | cons b t ih =>
    intro h
    have hb : b < 256 := h b (List.mem_cons_self _ _)
    have ht : ∀ b₂ ∈ t, b₂ < 256 := fun b₂ hb₂ => h b₂ (List.mem_cons_of_mem _ hb₂)
    have hvt : bytesVal t < 2 ^ (8 * t.length) := by
      rw [← pow256_eq]; exact bytesVal_lt t
    show beBytes (t.length + 1) (bytesVal (b :: t)) = b :: t
    rw [bytesVal_cons]
    simp only [beBytes]
    have hhead : (b % 256 * 256 ^ t.length + bytesVal t) >>> (8 * t.length) = b % 256 := by
      rw [pow256_eq]
      exact shiftRight_exact_add hvt
    have htail : beBytes t.length (b % 256 * 256 ^ t.length + bytesVal t) =
        beBytes t.length (bytesVal t) := by
      apply beBytes_congr
      rw [pow256_eq, Nat.mul_comm (b % 256), Nat.mul_add_mod]
    rw [hhead, htail, ih ht, Nat.mod_mod_of_dvd b (dvd_refl 256),
      Nat.mod_eq_of_lt hb]

/-- Packing the groups of a bit stream recovers the stream value. -/
theorem groupsVal_groupsOf (B : Nat) (hB : 0 < B) (v : Nat) :
    ∀ m : Nat, groupsVal B (groupsOf B (B * m) v) = v % 2 ^ (B * m) := by
  intro m
  induction m with
  | zero => simp [groupsOf, groupsVal, Nat.mod_one]
  | succ k ih =>
    have hBle : B ≤ B * (k + 1) := by
      calc B = B * 1 := by ring
        _ ≤ B * (k + 1) := Nat.mul_le_mul_left _ (by omega)
    have hsucc := groupsOf_succ (B := B) (n := B * (k + 1)) v hB hBle
    have hsub : B * (k + 1) - B = B * k := by
      have hx : B * (k + 1) = B * k + B := by ring
      omega
    rw [hsub] at hsucc
    rw [hsucc, groupsVal_cons, groupsOf_length, Nat.mul_div_cancel_left _ hB, ih,
      mod_mod_pow_ge _ (le_refl B)]
    have hms := mod_pow_split v (B * k) B
    rw [show B * k + B = B * (k + 1) from by ring] at hms
    omega

/-- `GetMinimalFromIndices` writes exactly the big-endian bytes of the
concatenated `(cBitLen+1)`-bit index stream. -/
theorem GetMinimalFromIndices_eq (cBitLen : Nat) (h8 : 7 ≤ cBitLen) (hB : cBitLen ≤ 24)
    (indices : List Nat) (hlt : ∀ i ∈ indices, i < 2 ^ (cBitLen + 1))
    (m : Nat) (hm : (cBitLen + 1) * indices.length = 8 * m) :
    GetMinimalFromIndices cBitLen indices =
      beBytes m (groupsVal (cBitLen + 1) indices) := by
  have hmin : (cBitLen + 1) * (indices.length * 4) / 32 = m := by
    have h1 : (cBitLen + 1) * (indices.length * 4) = 32 * m := by
      have h2 : (cBitLen + 1) * (indices.length * 4) =
          (cBitLen + 1) * indices.length * 4 := by ring
      omega
    rw [h1, Nat.mul_div_cancel_left _ (by norm_num)]
  simp only [GetMinimalFromIndices, CompressArray]
  rw [hmin, show (cBitLen + 1 + 7) / 8 + (4 - (cBitLen + 1 + 7) / 8) = 4 from by omega]
  have hclen : ∀ l ∈ indices.map EhIndexToArray, l.length = 4 := by
    intro l hl
    obtain ⟨i, _, rfl⟩ := List.mem_map.mp hl
    simp [EhIndexToArray, beBytes_length]
  have hseg : ∀ k, k < indices.length → ∀ x, x < 4 →
      ((indices.map EhIndexToArray).flatten).getD (0 + (4 * k + x)) 0 % 256 =
        (indices.getD k 0 >>> (8 * (4 - x - 1))) % 256 := by
    intro k hk x hx
    rw [Nat.zero_add,
      flatten_getD_const 4 (indices.map EhIndexToArray) k x hclen (by simpa using hk) hx]
    have hMk : (indices.map EhIndexToArray).getD k [] =
        EhIndexToArray (indices.getD k 0) := by
      rw [List.getD_eq_getElem?_getD, List.getElem?_map,
        List.getElem?_eq_getElem hk]
      simp [List.getD_eq_getElem?_getD, List.getElem?_eq_getElem hk]
    rw [hMk]
    have hik : indices.getD k 0 < 2 ^ (cBitLen + 1) := by
      have hmem : indices.getD k 0 ∈ indices := by
        rw [List.getD_eq_getElem?_getD, List.getElem?_eq_getElem hk]
        exact List.getElem_mem _
      exact hlt _ hmem
    have hi32 : indices.getD k 0 % 2 ^ 32 = indices.getD k 0 :=
      Nat.mod_eq_of_lt (lt_of_lt_of_le hik (Nat.pow_le_pow_right (by norm_num) (by omega)))
    simp only [EhIndexToArray, hi32]
    rw [beBytes_getD 4 _ x hx, Nat.mod_mod_of_dvd _ (dvd_refl 256)]
  have hloop := compressLoop_exact (cBitLen + 1) (by omega) (by omega)
    ((indices.map EhIndexToArray).flatten) m indices 0 0 0
    (by omega) hlt hseg
  rw [hloop]
  simp

/-- `to_indices` recovers exactly the `(cBitLen+1)`-bit groups of the input
byte stream (one `uint32` per group), when the stream divides evenly. -/
theorem to_indices_eq (cBitLen : Nat) (h8 : 7 ≤ cBitLen) (hB : cBitLen ≤ 24)
    (s : List Nat) (L : Nat) (hL : 8 * s.length = (cBitLen + 1) * L) :
    to_indices s s.length cBitLen =
      groupsOf (cBitLen + 1) (8 * s.length) (bytesVal s) := by
  have hpos : 0 < cBitLen + 1 := by omega
  have hGlen : (groupsOf (cBitLen + 1) (8 * s.length) (bytesVal s)).length = L := by
    rw [groupsOf_length, hL, Nat.mul_div_cancel_left _ hpos]
  set G := groupsOf (cBitLen + 1) (8 * s.length) (bytesVal s) with hGdef
  have hlenIdx : 32 * s.length / (cBitLen + 1) = 4 * L := by
    have h1 : 32 * s.length = (cBitLen + 1) * (4 * L) := by
      have h2 : 32 * s.length = 4 * (8 * s.length) := by ring
      have h3 : (cBitLen + 1) * (4 * L) = 4 * ((cBitLen + 1) * L) := by ring
      omega
    rw [h1, Nat.mul_div_cancel_left _ hpos]
  have hqp : (cBitLen + 1 + 7) / 8 + (4 - (cBitLen + 1 + 7) / 8) - (4 - (cBitLen + 1 + 7) / 8)
      = (cBitLen + 1 + 7) / 8 := by omega
  have hexp := expand_array_eq (cBitLen + 1) (4 - (cBitLen + 1 + 7) / 8)
    (by omega) (by omega) s
  rw [hqp] at hexp
  rw [← hGdef] at hexp
  set pad := 4 - (cBitLen + 1 + 7) / 8 with hpad
  set q := (cBitLen + 1 + 7) / 8 with hq
  have hpq : pad + q = 4 := by rw [hpad, hq]; omega
  set M := G.map (fun g => List.replicate pad 0 ++ beBytes q g) with hMdef
  have hclen : ∀ l ∈ M, l.length = 4 := by
    intro l hl
    obtain ⟨g, _, rfl⟩ := List.mem_map.mp hl
    simp only [List.length_append, List.length_replicate, beBytes_length]
    omega
  have harrlen : M.flatten.length = 4 * L := by
    rw [flatten_const_length 4 M hclen, hMdef, List.length_map, hGlen]
  simp only [to_indices]
  rw [List.take_length, hexp, hlenIdx, harrlen, Nat.sub_self,
    List.replicate_zero, List.append_nil,
    show (4 * L + 3) / 4 = L from by omega]
  apply List.ext_getElem
  · simp [hGlen]
  · intro i h1 h2
    simp only [List.getElem_map, List.getElem_range]
    have hiL : i < L := by simpa using h1
    have hiM : i < M.length := by rw [hMdef, List.length_map, hGlen]; exact hiL
    rw [flatten_drop_const 4 M i hclen, List.drop_eq_getElem_cons hiM,
      List.flatten_cons, array_to_index_append4 _ _ (hclen _ (List.getElem_mem _))]
    have hiG : i < G.length := by rw [hGlen]; exact hiL
    have hMi : M[i] = List.replicate pad 0 ++ beBytes q G[i] := by
      simp only [hMdef, List.getElem_map]
    rw [hMi]
    exact array_to_index_chunk pad q _ hpq
      (lt_of_lt_of_le (groupsOf_lt _ (List.getElem_mem _))
        (Nat.pow_le_pow_right (by norm_num) (by omega)))

/-- Round-trip of the minimal-solution codec for any exact-fit stream. -/
theorem codec_roundtrip_general (cBitLen : Nat) (h8 : 7 ≤ cBitLen) (hB : cBitLen ≤ 24)
    (P : Nat) (s : List Nat) (hbytes : ∀ b ∈ s, b < 256)
    (hlen8 : 8 * s.length = (cBitLen + 1) * P) :
    GetMinimalFromIndices cBitLen (to_indices s s.length cBitLen) = s ∧
    (to_indices s s.length cBitLen).length = P ∧
    ∀ i ∈ to_indices s s.length cBitLen, i < 2 ^ (cBitLen + 1) := by
  have hdec := to_indices_eq cBitLen h8 hB s P hlen8
  have hglen : (groupsOf (cBitLen + 1) (8 * s.length) (bytesVal s)).length = P := by
    rw [groupsOf_length, hlen8, Nat.mul_div_cancel_left _ (by omega)]
  refine ⟨?_, ?_, ?_⟩
  · rw [hdec]
    have hlt : ∀ i ∈ groupsOf (cBitLen + 1) (8 * s.length) (bytesVal s),
        i < 2 ^ (cBitLen + 1) := fun i hi => groupsOf_lt i hi
    have henc := GetMinimalFromIndices_eq cBitLen h8 hB _ hlt s.length
      (by rw [hglen]; omega)
    rw [henc]
    have hgv : groupsVal (cBitLen + 1)
        (groupsOf (cBitLen + 1) (8 * s.length) (bytesVal s)) =
        bytesVal s % 2 ^ (8 * s.length) := by
      have h1 := groupsVal_groupsOf (cBitLen + 1) (by omega) (bytesVal s) P
      rw [← hlen8] at h1
      exact h1
    rw [hgv, Nat.mod_eq_of_lt (by rw [← pow256_eq]; exact bytesVal_lt s)]
    exact beBytes_bytesVal s hbytes
  · rw [hdec]
    exact hglen
  · rw [hdec]
    exact fun i hi => groupsOf_lt i hi

/-- C2: for every supported `(N,K)` and every byte string `s` of length
`equihash_solution_size N K`, decoding `s` to indices with `to_indices`
(bit length `DIGITBITS+1`) and re-encoding them with `GetMinimalFromIndices`
yields `s` exactly; and the decode of any such minimal produces exactly
`PROOFSIZE K = 2^K` indices, each strictly below `2^(DIGITBITS+1)`. -/
theorem minimal_codec_roundtrip (N K : Nat)
    (hNK : N = 48 ∧ K = 5 ∨ N = 96 ∧ K = 5 ∨ N = 144 ∧ K = 5 ∨ N = 200 ∧ K = 9)
    (s : List Nat) (hbytes : ∀ b ∈ s, b < 256)
    (hlen : s.length = equihash_solution_size N K) :
    GetMinimalFromIndices (DIGITBITS N K) (to_indices s s.length (DIGITBITS N K)) = s ∧
    (to_indices s s.length (DIGITBITS N K)).length = PROOFSIZE K ∧
    ∀ i ∈ to_indices s s.length (DIGITBITS N K), i < 2 ^ (DIGITBITS N K + 1) := by
  rcases hNK with ⟨rfl, rfl⟩ | ⟨rfl, rfl⟩ | ⟨rfl, rfl⟩ | ⟨rfl, rfl⟩
  · exact codec_roundtrip_general (DIGITBITS 48 5) (by norm_num [DIGITBITS])
      (by norm_num [DIGITBITS]) (PROOFSIZE 5) s hbytes (by rw [hlen]; decide)
  · exact codec_roundtrip_general (DIGITBITS 96 5) (by norm_num [DIGITBITS])
      (by norm_num [DIGITBITS]) (PROOFSIZE 5) s hbytes (by rw [hlen]; decide)
  · exact codec_roundtrip_general (DIGITBITS 144 5) (by norm_num [DIGITBITS])
      (by norm_num [DIGITBITS]) (PROOFSIZE 5) s hbytes (by rw [hlen]; decide)
  · exact codec_roundtrip_general (DIGITBITS 200 9) (by norm_num [DIGITBITS])
      (by norm_num [DIGITBITS]) (PROOFSIZE 9) s hbytes (by rw [hlen]; decide)

/-- Concrete instance of the codec round-trip at `(48,5)` on the zero string. -/
theorem minimal_codec_roundtrip_witness :
    GetMinimalFromIndices (DIGITBITS 48 5)
        (to_indices (List.replicate 36 0) (List.replicate 36 0).length (DIGITBITS 48 5)) =
      List.replicate 36 0 ∧
    (to_indices (List.replicate 36 0) (List.replicate 36 0).length (DIGITBITS 48 5)).length =
      PROOFSIZE 5 ∧
    ∀ i ∈ to_indices (List.replicate 36 0) (List.replicate 36 0).length (DIGITBITS 48 5),
      i < 2 ^ (DIGITBITS 48 5 + 1) :=
  minimal_codec_roundtrip 48 5 (Or.inl ⟨rfl, rfl⟩) (List.replicate 36 0)
    (by decide) (by decide)

/-! ### verifyrec: byte-wise prefix test versus bit-prefix test -/

set_option maxRecDepth 8192 in
theorem byte_nonzero_bits : ∀ y, y < 256 →
    (y ≠ 0 ↔ ∃ j, j < 8 ∧ (y >>> (7 - j)) % 2 ≠ 0) := by decide

set_option maxRecDepth 8192 in
theorem byte_top_bits : ∀ y, y < 256 → ∀ t, t < 8 →
    (y >>> (8 - t) ≠ 0 ↔ ∃ j, j < t ∧ (y >>> (7 - j)) % 2 ≠ 0) := by decide

theorem mem_zipWith_xor : ∀ {as bs : List Nat} {y : Nat},
    y ∈ List.zipWith (fun a b => a ^^^ b) as bs →
    ∃ a b, a ∈ as ∧ b ∈ bs ∧ y = a ^^^ b := by
  intro as
  induction as with
  | nil => intro bs y hy; simp at hy
  | cons a t ih =>
    intro bs y hy
    cases bs with
    | nil => simp at hy
    | cons b u =>
      rw [List.zipWith_cons_cons] at hy
      rcases List.mem_cons.mp hy with h | h
      · exact ⟨a, b, List.mem_cons_self _ _, List.mem_cons_self _ _, h⟩
      · obtain ⟨a2, b2, ha2, hb2, rfl⟩ := ih h
        exact ⟨a2, b2, List.mem_cons_of_mem _ ha2, List.mem_cons_of_mem _ hb2, rfl⟩

theorem getD_lt_256 (h : List Nat) (hb : ∀ y ∈ h, y < 256) (k : Nat) :
    h.getD k 0 < 256 := by
  rcases Nat.lt_or_ge k h.length with hk | hk
  · rw [List.getD_eq_getElem?_getD, List.getElem?_eq_getElem hk]
    exact hb _ (List.getElem_mem _)
  · rw [List.getD_eq_getElem?_getD, List.getElem?_eq_none (by omega)]
    simp

/-- The verifier's byte loop plus partial-byte test is exactly the
"some of the first `b` bits is nonzero" condition. -/
theorem bytes_bits_equiv (h : List Nat) (hb : ∀ y ∈ h, y < 256) (b : Nat) :
    (((List.range (b / 8)).any (fun i => h.getD i 0 != 0)) = true ∨
      (b % 8 ≠ 0 ∧ h.getD (b / 8) 0 >>> (8 - b % 8) ≠ 0)) ↔
    (∃ i, i < b ∧ bitOf h i ≠ 0) := by
  constructor
  · rintro (hany | ⟨ht, hpart⟩)
    · rw [List.any_eq_true] at hany
      obtain ⟨i, hi, hby⟩ := hany
      rw [List.mem_range] at hi
      have hbyne : h.getD i 0 ≠ 0 := by simpa using hby
      obtain ⟨j, hj, hbit⟩ := (byte_nonzero_bits _ (getD_lt_256 h hb i)).mp hbyne
      refine ⟨8 * i + j, by omega, ?_⟩
      show (h.getD ((8 * i + j) / 8) 0 >>> (7 - (8 * i + j) % 8)) % 2 ≠ 0
      rw [show (8 * i + j) / 8 = i from by omega, show (8 * i + j) % 8 = j from by omega]
      exact hbit
    · obtain ⟨j, hj, hbit⟩ :=
        (byte_top_bits _ (getD_lt_256 h hb (b / 8)) (b % 8) (by omega)).mp hpart
      refine ⟨8 * (b / 8) + j, by omega, ?_⟩
      show (h.getD ((8 * (b / 8) + j) / 8) 0 >>> (7 - (8 * (b / 8) + j) % 8)) % 2 ≠ 0
      rw [show (8 * (b / 8) + j) / 8 = b / 8 from by omega,
        show (8 * (b / 8) + j) % 8 = j from by omega]
      exact hbit
  · rintro ⟨i, hib, hbit⟩
    simp only [bitOf] at hbit
    rcases Nat.lt_or_ge (i / 8) (b / 8) with hk | hk
    · left
      rw [List.any_eq_true]
      refine ⟨i / 8, List.mem_range.mpr hk, ?_⟩
      have hne : h.getD (i / 8) 0 ≠ 0 := by
        intro h0
        rw [h0] at hbit
        simp at hbit
      simpa using hne
    · right
      have hkb : i / 8 = b / 8 := by omega
      have hjb : i % 8 < b % 8 := by omega
      refine ⟨by omega, ?_⟩
      rw [← hkb]
      exact (byte_top_bits _ (getD_lt_256 h hb (i / 8)) (b % 8) (by omega)).mpr
        ⟨i % 8, hjb, hbit⟩

/-- On success paths the hash bytes produced by `verifyrec` are bytes. -/
theorem verifyrecM_hash_bytes (WN WK : Nat) (oracle : Nat → List Nat)
    (horacle : ∀ g, ∀ y ∈ oracle g, y < 256) :
    ∀ (r : Nat) (indices : List Nat),
      ∀ y ∈ (verifyrecM WN WK oracle indices r).2, y < 256 := by
  intro r
  induction r with
  | zero =>
    intro indices y hy
    simp only [verifyrecM, genhashM] at hy
    exact horacle _ y (List.mem_of_mem_drop (List.mem_of_mem_take hy))
  | succ rr ih =>
    intro indices y hy
    simp only [verifyrecM] at hy
    repeat' split at hy
    all_goals
      first
        | (obtain ⟨a, b2, ha, hb2, rfl⟩ := mem_zipWith_xor hy
           have h256 : (256 : Nat) = 2 ^ 8 := by norm_num
           rw [h256]
           exact Nat.xor_lt_two_pow (h256 ▸ ih indices a ha) (h256 ▸ ih _ b2 hb2))
        | simp at hy

/-- C3: for every round `1 ≤ r ≤ K` and every index array, `verifyrec`
returns `POW_OUT_OF_ORDER` exactly when `indices[0] ≥ indices[2^(r-1)]`
(checked before recursing); otherwise it recurses on the two halves,
propagating a failing code, XORs the two returned `N/8`-byte hashes, and
returns `POW_NONZERO_XOR` exactly when some of the first `b` bits of the
XOR is nonzero, where `b = r*DIGITBITS` for `r < K` and `b = N` for
`r = K`; in the remaining case it returns `POW_OK` and stores the XOR in
the hash buffer. -/
theorem verifyrec_round_structure (WN WK : Nat) (oracle : Nat → List Nat)
    (horacle : ∀ g, ∀ y ∈ oracle g, y < 256)
    (indices : List Nat) (r : Nat) (hr1 : 1 ≤ r) (hrK : r ≤ WK) :
    verifyrecM WN WK oracle indices r =
      (if indices.getD (2 ^ (r - 1)) 0 ≤ indices.getD 0 0 then
        (POW_OUT_OF_ORDER, ([] : List Nat))
      else if (verifyrecM WN WK oracle indices (r - 1)).1 ≠ POW_OK then
        ((verifyrecM WN WK oracle indices (r - 1)).1, [])
      else if (verifyrecM WN WK oracle (indices.drop (2 ^ (r - 1))) (r - 1)).1 ≠ POW_OK then
        ((verifyrecM WN WK oracle (indices.drop (2 ^ (r - 1))) (r - 1)).1, [])
      else
        (let h := List.zipWith (fun a b => a ^^^ b)
          (verifyrecM WN WK oracle indices (r - 1)).2
          (verifyrecM WN WK oracle (indices.drop (2 ^ (r - 1))) (r - 1)).2
        let b := if r < WK then r * DIGITBITS WN WK else WN
        if ∃ i, i < b ∧ bitOf h i ≠ 0 then (POW_NONZERO_XOR, [])
        else (POW_OK, h))) := by
  obtain ⟨rr, rfl⟩ : ∃ rr, r = rr + 1 := ⟨r - 1, by omega⟩
  simp only [Nat.add_sub_cancel]
  by_cases h1 : indices.getD (2 ^ rr) 0 ≤ indices.getD 0 0
  · rw [if_pos h1]
    simp only [verifyrecM]
    rw [if_pos h1]
  · rw [if_neg h1]
    by_cases h2 : (verifyrecM WN WK oracle indices rr).1 ≠ POW_OK
    · rw [if_pos h2]
      simp only [verifyrecM]
      rw [if_neg h1, if_pos h2]
    · rw [if_neg h2]
      by_cases h3 : (verifyrecM WN WK oracle (indices.drop (2 ^ rr)) rr).1 ≠ POW_OK
      · rw [if_pos h3]
        simp only [verifyrecM]
        rw [if_neg h1, if_neg h2, if_pos h3]
      · rw [if_neg h3]
        simp only [verifyrecM]
        rw [if_neg h1, if_neg h2, if_neg h3]
        have hh : ∀ y ∈ List.zipWith (fun a b => a ^^^ b)
            (verifyrecM WN WK oracle indices rr).2
            (verifyrecM WN WK oracle (indices.drop (2 ^ rr)) rr).2, y < 256 := by
          intro y hy
          obtain ⟨a, b2, ha, hb2, rfl⟩ := mem_zipWith_xor hy
          have h256 : (256 : Nat) = 2 ^ 8 := by norm_num
          rw [h256]
          exact Nat.xor_lt_two_pow
            (h256 ▸ verifyrecM_hash_bytes WN WK oracle horacle rr indices a ha)
            (h256 ▸ verifyrecM_hash_bytes WN WK oracle horacle rr _ b2 hb2)
        have hequiv := bytes_bits_equiv _ hh (if rr + 1 < WK then (rr + 1) * DIGITBITS WN WK else WN)
        by_cases hex : ∃ i, i < (if rr + 1 < WK then (rr + 1) * DIGITBITS WN WK else WN) ∧
            bitOf (List.zipWith (fun a b => a ^^^ b)
              (verifyrecM WN WK oracle indices rr).2
              (verifyrecM WN WK oracle (indices.drop (2 ^ rr)) rr).2) i ≠ 0
        · rw [if_pos hex]
          rcases hequiv.mpr hex with hc1 | hc2
          · rw [if_pos hc1]
          · by_cases hc1 : (List.range ((if rr + 1 < WK then (rr + 1) * DIGITBITS WN WK else WN) / 8)).any
                (fun i => (List.zipWith (fun a b => a ^^^ b)
                  (verifyrecM WN WK oracle indices rr).2
                  (verifyrecM WN WK oracle (indices.drop (2 ^ rr)) rr).2).getD i 0 != 0) = true
            · rw [if_pos hc1]
            · rw [if_neg hc1, if_pos hc2]
        · rw [if_neg hex]
          rw [if_neg (fun hc1 => hex (hequiv.mp (Or.inl hc1))),
            if_neg (fun hc2 => hex (hequiv.mp (Or.inr hc2)))]

/-- Concrete instance of the `verifyrec` round characterization at
`(48,5)`, round 1, on indices `[0,1]` under the all-zero-bytes oracle. -/
theorem verifyrec_round_structure_witness :
    verifyrecM 48 5 (fun _ => List.replicate 60 0) [0, 1] 1 =
      (if List.getD [0, 1] (2 ^ (1 - 1)) 0 ≤ List.getD [0, 1] 0 0 then
        (POW_OUT_OF_ORDER, ([] : List Nat))
      else if (verifyrecM 48 5 (fun _ => List.replicate 60 0) [0, 1] (1 - 1)).1 ≠ POW_OK then
        ((verifyrecM 48 5 (fun _ => List.replicate 60 0) [0, 1] (1 - 1)).1, [])
      else if (verifyrecM 48 5 (fun _ => List.replicate 60 0)
          (List.drop (2 ^ (1 - 1)) [0, 1]) (1 - 1)).1 ≠ POW_OK then
        ((verifyrecM 48 5 (fun _ => List.replicate 60 0)
          (List.drop (2 ^ (1 - 1)) [0, 1]) (1 - 1)).1, [])
      else
        (let h := List.zipWith (fun a b => a ^^^ b)
          (verifyrecM 48 5 (fun _ => List.replicate 60 0) [0, 1] (1 - 1)).2
          (verifyrecM 48 5 (fun _ => List.replicate 60 0)
            (List.drop (2 ^ (1 - 1)) [0, 1]) (1 - 1)).2
        let b := if 1 < 5 then 1 * DIGITBITS 48 5 else 48
        if ∃ i, i < b ∧ bitOf h i ≠ 0 then (POW_NONZERO_XOR, [])
        else (POW_OK, h))) :=
  verifyrec_round_structure 48 5 (fun _ => List.replicate 60 0)
    (fun _ y hy => by rw [List.eq_of_mem_replicate hy]; norm_num)
    [0, 1] 1 (by norm_num) (by norm_num)

/-! ### duped and the POW_DUPLICATE path of verify -/

/-- `verifyrec` only ever produces the codes 0, 3 and 4. -/
theorem verifyrecM_code (WN WK : Nat) (oracle : Nat → List Nat) :
    ∀ (r : Nat) (indices : List Nat),
      (verifyrecM WN WK oracle indices r).1 = POW_OK ∨
      (verifyrecM WN WK oracle indices r).1 = POW_OUT_OF_ORDER ∨
      (verifyrecM WN WK oracle indices r).1 = POW_NONZERO_XOR := by
  intro r
  induction r with
  | zero => intro indices; left; rfl
  | succ rr ih =>
    intro indices
    simp only [verifyrecM]
    repeat' split
    all_goals first
      | (left; rfl)
      | (right; left; rfl)
      | (right; right; rfl)
      | exact ih indices
      | exact ih _

/-- `duped` returns false exactly on in-range duplicate-free proofs. -/
theorem dupedM_false_iff (WN WK : Nat) (prf : List Nat)
    (hlen : prf.length = PROOFSIZE WK) :
    dupedM WN WK prf = false ↔
      (prf.Nodup ∧ ∀ x ∈ prf, x < 2 ^ (DIGITBITS WN WK + 1)) := by
  have htake : prf.take (PROOFSIZE WK) = prf := by
    rw [← hlen]; exact List.take_length prf
  have hperm : (List.insertionSort (· ≤ ·) prf).Perm prf :=
    List.perm_insertionSort _ prf
  have hsorted : List.Sorted (· ≤ ·) (List.insertionSort (· ≤ ·) prf) :=
    List.sorted_insertionSort _ prf
  set s := List.insertionSort (· ≤ ·) prf with hs
  have hslen : s.length = PROOFSIZE WK := by rw [hperm.length_eq, hlen]
  have hP1 : 1 ≤ PROOFSIZE WK := Nat.one_le_two_pow
  set maxV := 2 ^ (DIGITBITS WN WK + 1) - 1 with hmaxV
  have hmx : ∀ x : Nat, x ≤ maxV ↔ x < 2 ^ (DIGITBITS WN WK + 1) := by
    intro x
    have h1 : (1 : Nat) ≤ 2 ^ (DIGITBITS WN WK + 1) := Nat.one_le_two_pow
    omega
  have hgetD : ∀ j (hj : j < s.length), s.getD j 0 = s.get ⟨j, hj⟩ := by
    intro j hj
    rw [List.getD_eq_getElem?_getD, List.getElem?_eq_getElem hj]
    rfl
  have hform : dupedM WN WK prf = false ↔
      (s.getD 0 0 ≤ maxV ∧ ∀ j, j < PROOFSIZE WK - 1 →
        s.getD j 0 < s.getD (j + 1) 0 ∧ s.getD (j + 1) 0 ≤ maxV) := by
    simp only [dupedM, htake, ← hs, ← hmaxV]
    by_cases hc : maxV < s.getD 0 0
    · rw [if_pos hc]
      simp only [Bool.true_eq_false, false_iff]
      rintro ⟨h0, _⟩
      exact absurd hc (not_lt.mpr h0)
    · rw [if_neg hc, List.any_eq_false]
      constructor
      · intro hall
        refine ⟨by omega, fun j hj => ?_⟩
        have hj2 := hall j (List.mem_range.mpr hj)
        simp only [Bool.or_eq_true, decide_eq_true_eq, not_or] at hj2
        exact ⟨not_le.mp hj2.1, not_lt.mp hj2.2⟩
      · rintro ⟨h0, hstep⟩ j hjmem
        rw [List.mem_range] at hjmem
        have hj2 := hstep j hjmem
        simp only [Bool.or_eq_true, decide_eq_true_eq, not_or]
        exact ⟨not_le.mpr hj2.1, not_lt.mpr hj2.2⟩
  have hchain : List.Chain' (· < ·) s ↔
      (∀ j, j < PROOFSIZE WK - 1 → s.getD j 0 < s.getD (j + 1) 0) := by
    rw [List.chain'_iff_get]
    constructor
    · intro h j hj
      have hj1 := h j (by omega)
      rw [hgetD j (by omega), hgetD (j + 1) (by omega)]
      exact hj1
    · intro h i hi
      have hj1 := h i (by omega)
      rw [hgetD i (by omega), hgetD (i + 1) (by omega)] at hj1
      exact hj1
  have hmem_getD : ∀ x ∈ s, ∃ j, j < PROOFSIZE WK ∧ s.getD j 0 = x := by
    intro x hx
    obtain ⟨j, hj, hx2⟩ := List.mem_iff_getElem.mp hx
    refine ⟨j, by omega, ?_⟩
    rw [hgetD j hj, List.get_eq_getElem]
    exact hx2
  rw [hform]
  constructor
  · rintro ⟨h0, hstep⟩
    have hch : List.Chain' (· < ·) s := hchain.mpr (fun j hj => (hstep j hj).1)
    have hpw : List.Pairwise (· < ·) s := List.chain'_iff_pairwise.mp hch
    have hnodup : s.Nodup := hpw.imp (fun hlt => Nat.ne_of_lt hlt)
    refine ⟨(hperm.nodup_iff).mp hnodup, ?_⟩
    intro x hx
    have hxs : x ∈ s := hperm.mem_iff.mpr hx
    obtain ⟨j, hjP, hj⟩ := hmem_getD x hxs
    rw [← hmx x, ← hj]
    cases j with
    | zero => exact h0
    | succ jj => exact (hstep jj (by omega)).2
  · rintro ⟨hnodup, hbound⟩
    have hsnodup : s.Nodup := (hperm.nodup_iff).mpr hnodup
    have hpw : List.Sorted (· < ·) s := List.Sorted.lt_of_le hsorted hsnodup
    have hch := List.chain'_iff_pairwise.mpr hpw
    have hstep := hchain.mp hch
    have hboundS : ∀ x ∈ s, x ≤ maxV := fun x hx =>
      (hmx x).mpr (hbound x (hperm.mem_iff.mp hx))
    refine ⟨?_, fun j hj => ⟨hstep j hj, ?_⟩⟩
    · have h0mem : s.getD 0 0 ∈ s := by
        rw [hgetD 0 (by omega), List.get_eq_getElem]
        exact List.getElem_mem _
      exact hboundS _ h0mem
    · have hmem : s.getD (j + 1) 0 ∈ s := by
        rw [hgetD (j + 1) (by omega), List.get_eq_getElem]
        exact List.getElem_mem _
      exact hboundS _ hmem

/-- C4: with a header of length at most 180 bytes and a proof of exactly
`PROOFSIZE` indices, `verify` returns `POW_DUPLICATE` if and only if
`duped(indices)` holds, which in turn holds if and only if the sorted copy
of the `2^K` indices is not strictly ascending (some value repeats) or
some index reaches `2^(DIGITBITS+1)`. -/
theorem verify_duplicate_iff (WN WK : Nat) (oracle : Nat → List Nat)
    (indices : List Nat) (input_len : Nat)
    (hlen : input_len ≤ HEADERNONCELEN)
    (hsize : indices.length = PROOFSIZE WK) :
    (verifyM WN WK oracle indices (PROOFSIZE WK) input_len = POW_DUPLICATE ↔
      dupedM WN WK indices = true) ∧
    (dupedM WN WK indices = true ↔
      ¬ indices.Nodup ∨ ∃ i ∈ indices, 2 ^ (DIGITBITS WN WK + 1) ≤ i) := by
  have hdup := dupedM_false_iff WN WK indices hsize
  constructor
  · rw [verifyM, if_neg (show ¬ HEADERNONCELEN < input_len by omega),
      if_neg (show ¬ (PROOFSIZE WK ≠ PROOFSIZE WK) by simp)]
    by_cases hd : dupedM WN WK indices
    · rw [if_pos hd]
      simp [hd]
    · rw [if_neg hd]
      constructor
      · intro hcode
        rcases verifyrecM_code WN WK oracle WK indices with h | h | h <;>
          rw [h] at hcode <;> exact absurd hcode (by decide)
      · intro hdt
        exact absurd hdt hd
  · constructor
    · intro hdt
      by_contra hcon
      push_neg at hcon
      obtain ⟨hnd, hball⟩ := hcon
      have hf : dupedM WN WK indices = false :=
        hdup.mpr ⟨hnd, fun x hx => by have := hball x hx; omega⟩
      rw [hf] at hdt
      exact absurd hdt (by decide)
    · intro hcon
      by_contra hdf
      have hf : dupedM WN WK indices = false := by
        cases hdm : dupedM WN WK indices
        · rfl
        · exact absurd hdm hdf
      obtain ⟨hnd, hb⟩ := hdup.mp hf
      rcases hcon with h | ⟨i, hi, hge⟩
      · exact h hnd
      · have := hb i hi
        omega

/-- Concrete instance of the duplicate characterization at `(48,5)` on a
proof made of 32 equal indices. -/
theorem verify_duplicate_iff_witness :
    (verifyM 48 5 (fun _ => List.replicate 60 0) (List.replicate 32 0)
        (PROOFSIZE 5) 180 = POW_DUPLICATE ↔
      dupedM 48 5 (List.replicate 32 0) = true) ∧
    (dupedM 48 5 (List.replicate 32 0) = true ↔
      ¬ (List.replicate 32 0).Nodup ∨
        ∃ i ∈ List.replicate 32 0, 2 ^ (DIGITBITS 48 5 + 1) ≤ i) :=
  verify_duplicate_iff 48 5 (fun _ => List.replicate 60 0)
    (List.replicate 32 0) 180 (by decide) (by decide)

/-- C10: validation is non-destructive on the caller's proof buffer: the
state-passing embedding of `verify` (in which `duped` sorts only a private
copy and `verifyrec` writes only the local hash buffer) returns the
`2^K`-entry indices array unchanged for every input and result code, and
computes the same code as the functional model. -/
theorem verify_proof_buffer_frame (WN WK : Nat) (oracle : Nat → List Nat)
    (proofsize input_len : Nat) (m : VerifyMem) :
    ((verifySt WN WK oracle proofsize input_len m).2).prf = m.prf ∧
    (verifySt WN WK oracle proofsize input_len m).1 =
      verifyM WN WK oracle m.prf proofsize input_len := by
  unfold verifySt verifyM
  repeat' split
  all_goals simp_all

/-! ### Parameter dispatch (C5) -/

/-- `verify` never produces `POW_UNKNOWN_PARAMS`. -/
theorem verifyM_ne_unknown (WN WK : Nat) (oracle : Nat → List Nat)
    (indices : List Nat) (proofsize input_len : Nat) :
    verifyM WN WK oracle indices proofsize input_len ≠ POW_UNKNOWN_PARAMS := by
  unfold verifyM
  repeat' split
  all_goals
    first
      | decide
      | (rcases verifyrecM_code WN WK oracle WK indices with h | h | h <;>
          rw [h] <;> decide)

/-- A value matching no row of the table is not found. -/
theorem find_solver_none (m : Nat) (h1 : m ≠ 48) (h2 : m ≠ 96)
    (h3 : m ≠ 144) (h4 : m ≠ 200) : find_solver m = none := by
  have e1 : ((48 : Nat) == m) = false := beq_eq_false_iff_ne.mpr (Ne.symm h1)
  have e2 : ((96 : Nat) == m) = false := beq_eq_false_iff_ne.mpr (Ne.symm h2)
  have e3 : ((144 : Nat) == m) = false := beq_eq_false_iff_ne.mpr (Ne.symm h3)
  have e4 : ((200 : Nat) == m) = false := beq_eq_false_iff_ne.mpr (Ne.symm h4)
  simp [find_solver, solversM, List.find?, e1, e2, e3, e4]

/-- C5 (amended): `EquihashValidate` returns `POW_UNKNOWN_PARAMS` exactly
when `n ≤ 0`, `k ≤ 0`, or `n` matches no table row; the lookup compares
`N` only, so an unsupported pair whose `n` does occur in the table (such
as `(96,4)`) is dispatched to that row's validator and `k` enters only
through `collision_bit_length = n/(k+1)`. -/
theorem equihash_validate_unknown_iff (oracle : Nat → List Nat) (n k : Int)
    (input_len : Nat) (soln : List Nat) :
    EquihashValidateM oracle n k input_len soln = POW_UNKNOWN_PARAMS ↔
      (n ≤ 0 ∨ k ≤ 0 ∨ (n ≠ 48 ∧ n ≠ 96 ∧ n ≠ 144 ∧ n ≠ 200)) := by
  by_cases hnk : n ≤ 0 ∨ k ≤ 0
  · simp only [EquihashValidateM, if_pos hnk]
    constructor
    · intro _
      rcases hnk with h | h
      · exact Or.inl h
      · exact Or.inr (Or.inl h)
    · intro _
      trivial
  · simp only [EquihashValidateM, if_neg hnk]
    push_neg at hnk
    by_cases hn1 : n = 48
    · subst hn1
      have hf : find_solver ((48 : Int).toNat) = some (48, 5) := rfl
      rw [hf]
      simp only []
      constructor
      · intro hcode
        exact absurd hcode (verifyM_ne_unknown _ _ _ _ _ _)
      · rintro (h | h | ⟨h, _⟩)
        · omega
        · omega
        · exact absurd rfl h
    · by_cases hn2 : n = 96
      · subst hn2
        have hf : find_solver ((96 : Int).toNat) = some (96, 5) := rfl
        rw [hf]
        simp only []
        constructor
        · intro hcode
          exact absurd hcode (verifyM_ne_unknown _ _ _ _ _ _)
        · rintro (h | h | ⟨_, h, _⟩)
          · omega
          · omega
          · exact absurd rfl h
      · by_cases hn3 : n = 144
        · subst hn3
          have hf : find_solver ((144 : Int).toNat) = some (144, 5) := rfl
          rw [hf]
          simp only []
          constructor
          · intro hcode
            exact absurd hcode (verifyM_ne_unknown _ _ _ _ _ _)
          · rintro (h | h | ⟨_, _, h, _⟩)
            · omega
            · omega
            · exact absurd rfl h
        · by_cases hn4 : n = 200
          · subst hn4
            have hf : find_solver ((200 : Int).toNat) = some (200, 9) := rfl
            rw [hf]
            simp only []
            constructor
            · intro hcode
              exact absurd hcode (verifyM_ne_unknown _ _ _ _ _ _)
            · rintro (h | h | ⟨_, _, _, h⟩)
              · omega
              · omega
              · exact absurd rfl h
          · have hf : find_solver n.toNat = none :=
              find_solver_none n.toNat (by omega) (by omega) (by omega) (by omega)
            rw [hf]
            simp only []
            constructor
            · intro _
              exact Or.inr (Or.inr ⟨hn1, hn2, hn3, hn4⟩)
            · intro _
              trivial

/-- The pair `(96,4)` lies outside the supported set, yet
`EquihashValidate` proceeds past the parameter check: on a zero header of
length 0 and a 68-zero-byte solution buffer it returns
`POW_SOL_SIZE_MISMATCH`, not `POW_UNKNOWN_PARAMS`. -/
theorem equihash_validate_96_4_counterexample :
    EquihashValidateM (fun _ => List.replicate 60 0) 96 4 0 (List.replicate 68 0) =
      POW_SOL_SIZE_MISMATCH ∧
    ¬ (EquihashValidateM (fun _ => List.replicate 60 0) 96 4 0 (List.replicate 68 0) =
      POW_UNKNOWN_PARAMS) := by
  constructor
  · decide
  · decide

/-! ### The Newton sqrt loop and Cantor decoding (C9) -/

/-- One Newton step from any positive point stays at or above the integer
square root. -/
theorem sqrt_newton_step (sqr k : Nat) (hk : 0 < k) :
    Nat.sqrt sqr ≤ (k + sqr / k) / 2 := by
  have hss : Nat.sqrt sqr * Nat.sqrt sqr ≤ sqr := Nat.sqrt_le sqr
  obtain ⟨q, hq⟩ : ∃ q, sqr / k = q := ⟨_, rfl⟩
  rw [hq]
  have h2s : 2 * Nat.sqrt sqr ≤ k + q := by
    rcases Nat.le_total (2 * Nat.sqrt sqr) k with h | h
    · omega
    · have hks : k * (2 * Nat.sqrt sqr - k) ≤ Nat.sqrt sqr * Nat.sqrt sqr := by
        zify [h]
        nlinarith [sq_nonneg ((Nat.sqrt sqr : Int) - k)]
      have hdiv : 2 * Nat.sqrt sqr - k ≤ q := by
        rw [← hq, Nat.le_div_iff_mul_le hk]
        calc (2 * Nat.sqrt sqr - k) * k = k * (2 * Nat.sqrt sqr - k) :=
            Nat.mul_comm _ _
          _ ≤ Nat.sqrt sqr * Nat.sqrt sqr := hks
          _ ≤ sqr := hss
      omega
  omega

/-- The Newton loop started at or above the square root computes exactly
`Nat.sqrt` (and in particular terminates, its argument strictly
decreasing). -/
theorem sqrtLoop_eq_sqrt (sqr : Nat) :
    ∀ k, Nat.sqrt sqr ≤ k → sqrtLoop sqr k = Nat.sqrt sqr := by
  intro k
  induction k using Nat.strong_induction_on with
  | _ k ih =>
    intro hk
    rw [sqrtLoop]
    by_cases h : sqr / k < k
    · rw [dif_pos h]
      have hk0 : 0 < k := by
        obtain ⟨q, hq⟩ : ∃ q, sqr / k = q := ⟨_, rfl⟩
        rw [hq] at h
        omega
      have hdec : (k + sqr / k) / 2 < k := by
        obtain ⟨q, hq⟩ : ∃ q, sqr / k = q := ⟨_, rfl⟩
        rw [hq] at h ⊢
        omega
      exact ih _ hdec (sqrt_newton_step sqr k hk0)
    · rw [dif_neg h]
      push_neg at h
      rcases Nat.eq_zero_or_pos k with hk0 | hk0
      · omega
      · have hkk : k * k ≤ sqr := by
          have h2 := (Nat.le_div_iff_mul_le hk0).mp h
          omega
        have hle : k ≤ Nat.sqrt sqr := Nat.le_sqrt.mpr hkk
        omega

/-- `(sqrt(8c+1) - 1)/2` is the unique `k` with
`k*(k+1)/2 ≤ c < (k+1)*(k+2)/2`. -/
theorem cantor_triangle_bounds (c r k : Nat)
    (hr : r = Nat.sqrt (8 * c + 1)) (hk : k = (r - 1) / 2) :
    k * (k + 1) / 2 ≤ c ∧ c < (k + 1) * (k + 2) / 2 := by
  have hr1 : r * r ≤ 8 * c + 1 := by rw [hr]; exact Nat.sqrt_le _
  have hr2 : 8 * c + 1 < (r + 1) * (r + 1) := by rw [hr]; exact Nat.lt_succ_sqrt _
  have hrpos : 1 ≤ r := by
    rw [hr]
    exact Nat.le_sqrt.mpr (by omega)
  have hk1 : 2 * k + 1 ≤ r := by omega
  have hk2 : r ≤ 2 * k + 2 := by omega
  constructor
  · have hsq : (2 * k + 1) * (2 * k + 1) ≤ 8 * c + 1 :=
      le_trans (Nat.mul_le_mul hk1 hk1) hr1
    have hx : (2 * k + 1) * (2 * k + 1) = 4 * (k * (k + 1)) + 1 := by ring
    omega
  · have hsq : 8 * c + 1 < (2 * k + 3) * (2 * k + 3) :=
      lt_of_lt_of_le hr2 (Nat.mul_le_mul (by omega) (by omega))
    have hx : (2 * k + 3) * (2 * k + 3) = 4 * ((k + 1) * (k + 2)) + 1 := by ring
    obtain ⟨m, hm⟩ := Nat.even_mul_succ_self (k + 1)
    have hm2 : (k + 1) * (k + 2) = m + m := by
      calc (k + 1) * (k + 2) = (k + 1) * (k + 1 + 1) := by ring
        _ = m + m := hm
    omega

/-- C9: for the Cantor-paired tree encoding (`N=200, K=9`): every
`bid < NBUCKETS` and slot pair `s0 ≤ s1 < NSLOTS` decodes back exactly
(`bucketid`, `slotid1`, then `slotid0`), and for every Cantor number in
range the iterative integer-sqrt decoding terminates with the unique `k`
satisfying `k*(k+1)/2 ≤ c < (k+1)*(k+2)/2`. -/
theorem tree_cantor_roundtrip (bid s0 s1 : Nat) (hbid : bid < NBUCKETS 200 9)
    (hs0 : s0 ≤ s1) (hs1 : s1 < NSLOTS 200 9) :
    (treeBucketid (treeEncCantor bid s0 s1) = bid ∧
      treeSlotid1 (treeEncCantor bid s0 s1) = s1 ∧
      treeSlotid0 (treeEncCantor bid s0 s1) s1 = s0) ∧
    (∀ c, c ≤ cantorM 2632 2632 →
      sqrtLoop (8 * c + 1) (CANTORMAXSQRT 200 9) = Nat.sqrt (8 * c + 1) ∧
      (sqrtLoop (8 * c + 1) (CANTORMAXSQRT 200 9) - 1) / 2 *
          ((sqrtLoop (8 * c + 1) (CANTORMAXSQRT 200 9) - 1) / 2 + 1) / 2 ≤ c ∧
      c < ((sqrtLoop (8 * c + 1) (CANTORMAXSQRT 200 9) - 1) / 2 + 1) *
          ((sqrtLoop (8 * c + 1) (CANTORMAXSQRT 200 9) - 1) / 2 + 2) / 2) := by
  have hNB : NBUCKETS 200 9 = 1024 := rfl
  have hNS : NSLOTS 200 9 = 2633 := rfl
  have hCB : CANTORBITS 200 9 = 22 := rfl
  have hCM : CANTORMASK 200 9 = 2 ^ 22 - 1 := rfl
  have hCMS : CANTORMAXSQRT 200 9 = 5266 := rfl
  have hsqrt_in_range : ∀ c : Nat, c ≤ 3467660 →
      sqrtLoop (8 * c + 1) (CANTORMAXSQRT 200 9) = Nat.sqrt (8 * c + 1) := by
    intro c hc
    have hbound : Nat.sqrt (8 * c + 1) ≤ 5266 := by
      have h1 : Nat.sqrt (8 * c + 1) < 5267 := by
        rw [Nat.sqrt_lt]
        omega
      omega
    rw [hCMS]
    exact sqrtLoop_eq_sqrt (8 * c + 1) 5266 hbound
  constructor
  · rw [hNB] at hbid
    rw [hNS] at hs1
    have hprod : s1 * (s1 + 1) ≤ 2632 * 2633 :=
      Nat.mul_le_mul (by omega) (by omega)
    have hc32 : s1 * (s1 + 1) / 2 + s0 < 2 ^ 22 := by omega
    have hcM : cantorM s0 s1 = s1 * (s1 + 1) / 2 + s0 := by
      unfold cantorM
      exact Nat.mod_eq_of_lt (by omega)
    have hv : treeEncCantor bid s0 s1 = bid * 2 ^ 22 + (s1 * (s1 + 1) / 2 + s0) := by
      unfold treeEncCantor
      rw [hCB, hcM, Nat.shiftLeft_eq,
        or_eq_add_of_aligned (Nat.mul_mod_left _ _) hc32]
      exact Nat.mod_eq_of_lt (by omega)
    have hvmod : treeEncCantor bid s0 s1 % 2 ^ 22 = s1 * (s1 + 1) / 2 + s0 := by
      rw [hv, Nat.mul_comm bid, Nat.mul_add_mod]
      exact Nat.mod_eq_of_lt hc32
    have hmask : treeEncCantor bid s0 s1 &&& CANTORMASK 200 9 =
        s1 * (s1 + 1) / 2 + s0 := by
      rw [hCM, and_mask_mod, hvmod]
    refine ⟨?_, ?_, ?_⟩
    · unfold treeBucketid
      rw [show 2 * SLOTBITS 200 9 - 2 = 22 from rfl, hv,
        Nat.shiftRight_eq_div_pow, Nat.mul_comm bid,
        Nat.mul_add_div (by norm_num), Nat.div_eq_of_lt hc32, Nat.add_zero]
    · unfold treeSlotid1
      rw [hmask, hsqrt_in_range (s1 * (s1 + 1) / 2 + s0) (by omega)]
      obtain ⟨m, hm⟩ := Nat.even_mul_succ_self s1
      have hlow : 2 * s1 + 1 ≤ Nat.sqrt (8 * (s1 * (s1 + 1) / 2 + s0) + 1) := by
        rw [Nat.le_sqrt]
        have hx : (2 * s1 + 1) * (2 * s1 + 1) = 4 * (s1 * (s1 + 1)) + 1 := by ring
        omega
      have hhigh : Nat.sqrt (8 * (s1 * (s1 + 1) / 2 + s0) + 1) < 2 * s1 + 3 := by
        rw [Nat.sqrt_lt]
        have hx : (2 * s1 + 3) * (2 * s1 + 3) = 4 * ((s1 + 1) * (s1 + 2)) + 1 := by
          ring
        have hy : (s1 + 1) * (s1 + 2) = s1 * (s1 + 1) + 2 * (s1 + 1) := by ring
        omega
      omega
    · unfold treeSlotid0
      rw [hmask]
      have hc0 : cantorM 0 s1 = s1 * (s1 + 1) / 2 := by
        unfold cantorM
        rw [Nat.add_zero]
        exact Nat.mod_eq_of_lt (by omega)
      rw [hc0]
      have he : s1 * (s1 + 1) / 2 + s0 + (2 ^ 32 - s1 * (s1 + 1) / 2) =
          s0 + 2 ^ 32 := by omega
      rw [he, Nat.add_mod_right]
      exact Nat.mod_eq_of_lt (by omega)
  · intro c hc
    have hcle : c ≤ 3467660 := by
      have hval : cantorM 2632 2632 = 3467660 := by decide
      omega
    have h1 := hsqrt_in_range c hcle
    have h2 := cantor_triangle_bounds c (Nat.sqrt (8 * c + 1))
      ((Nat.sqrt (8 * c + 1) - 1) / 2) rfl rfl
    exact ⟨h1, by rw [h1]; exact h2.1, by rw [h1]; exact h2.2⟩

/-- Concrete instance of the Cantor round-trip at the extreme corner
`bid = 1023`, `s0 = 2632`, `s1 = 2632`. -/
theorem tree_cantor_roundtrip_witness :
    (treeBucketid (treeEncCantor 1023 2632 2632) = 1023 ∧
      treeSlotid1 (treeEncCantor 1023 2632 2632) = 2632 ∧
      treeSlotid0 (treeEncCantor 1023 2632 2632) 2632 = 2632) ∧
    (∀ c, c ≤ cantorM 2632 2632 →
      sqrtLoop (8 * c + 1) (CANTORMAXSQRT 200 9) = Nat.sqrt (8 * c + 1) ∧
      (sqrtLoop (8 * c + 1) (CANTORMAXSQRT 200 9) - 1) / 2 *
          ((sqrtLoop (8 * c + 1) (CANTORMAXSQRT 200 9) - 1) / 2 + 1) / 2 ≤ c ∧
      c < ((sqrtLoop (8 * c + 1) (CANTORMAXSQRT 200 9) - 1) / 2 + 1) *
          ((sqrtLoop (8 * c + 1) (CANTORMAXSQRT 200 9) - 1) / 2 + 2) / 2) :=
  tree_cantor_roundtrip 1023 2632 2632 (by decide) (by decide) (by decide)

/-! ### Sortedness through combineRows (C8) -/

theorem joinFromTop_perm : ∀ as bs, (joinFromTop as bs).Perm (as ++ bs) := by
  intro as bs
  induction as, bs using joinFromTop.induct with
  | case1 bs => simp [joinFromTop]
  | case2 a as => simp [joinFromTop]
  | case3 a as b bs h ih =>
    rw [joinFromTop, if_pos h]
    exact (ih.cons a).trans (by simp)
  | case4 a as b bs h ih =>
    rw [joinFromTop, if_neg h]
    exact (ih.cons b).trans List.perm_middle.symm

/-- The top-down merge keeps the largest-first order. -/
theorem joinFromTop_sorted : ∀ as bs, List.Sorted (· ≥ ·) as →
    List.Sorted (· ≥ ·) bs → List.Sorted (· ≥ ·) (joinFromTop as bs) := by
  intro as bs
  induction as, bs using joinFromTop.induct with
  | case1 bs => intro _ hb; simpa [joinFromTop] using hb
  | case2 a as => intro ha _; simpa [joinFromTop] using ha
  | case3 a as b bs h ih =>
    intro ha hb
    rw [joinFromTop, if_pos h]
    rw [List.sorted_cons] at ha ⊢
    refine ⟨?_, ih ha.2 hb⟩
    intro x hx
    have hx2 := (joinFromTop_perm as (b :: bs)).mem_iff.mp hx
    rcases List.mem_append.mp hx2 with hxa | hxb
    · exact ha.1 x hxa
    · rcases List.mem_cons.mp hxb with rfl | hxbs
      · exact h
      · rw [List.sorted_cons] at hb
        exact le_trans (hb.1 x hxbs) h
  | case4 a as b bs h ih =>
    intro ha hb
    rw [joinFromTop, if_neg h]
    rw [List.sorted_cons] at hb ⊢
    refine ⟨?_, ih ha hb.2⟩
    intro x hx
    have hx2 := (joinFromTop_perm (a :: as) bs).mem_iff.mp hx
    rcases List.mem_append.mp hx2 with hxa | hxb
    · rcases List.mem_cons.mp hxa with rfl | hxas
      · omega
      · rw [List.sorted_cons] at ha
        have h2 := ha.1 x hxas
        omega
    · exact hb.1 x hxb

theorem joinSortedArraysM_perm (a b : List Nat) :
    (joinSortedArraysM a b).Perm (a ++ b) := by
  unfold joinSortedArraysM
  refine ((List.reverse_perm _).trans (joinFromTop_perm _ _)).trans ?_
  exact a.reverse_perm.append b.reverse_perm

/-- C8 (amended): in the optimized reference solver, for parent rows whose
index sub-arrays are strictly ascending with disjoint index sets, the
child row produced by `combineRows` has a strictly ascending index
sub-array listing exactly the parents' indices.  (The basic variant
instead concatenates the two whole sub-arrays; see the counterexample.) -/
theorem combineRows_opt_sorted (aHash bHash aIdx bIdx : List Nat) (trim : Nat)
    (ha : List.Sorted (· < ·) aIdx) (hb : List.Sorted (· < ·) bIdx)
    (hdisj : ∀ x ∈ aIdx, x ∉ bIdx) :
    List.Sorted (· < ·) (combineRowsOpt aHash bHash aIdx bIdx trim).2 ∧
    (combineRowsOpt aHash bHash aIdx bIdx trim).2.Perm (aIdx ++ bIdx) := by
  have hperm : (joinSortedArraysM aIdx bIdx).Perm (aIdx ++ bIdx) :=
    joinSortedArraysM_perm aIdx bIdx
  have hrevA : List.Sorted (· ≥ ·) aIdx.reverse := by
    rw [List.Sorted, List.pairwise_reverse]
    exact ha.imp (fun h => le_of_lt h)
  have hrevB : List.Sorted (· ≥ ·) bIdx.reverse := by
    rw [List.Sorted, List.pairwise_reverse]
    exact hb.imp (fun h => le_of_lt h)
  have hsortGe : List.Sorted (· ≥ ·) (joinFromTop aIdx.reverse bIdx.reverse) :=
    joinFromTop_sorted _ _ hrevA hrevB
  have hsortedle : List.Sorted (· ≤ ·) (joinSortedArraysM aIdx bIdx) := by
    unfold joinSortedArraysM
    rw [List.Sorted, List.pairwise_reverse]
    exact hsortGe.imp (fun h => h)
  have hnodup : (joinSortedArraysM aIdx bIdx).Nodup := by
    rw [hperm.nodup_iff, List.nodup_append]
    exact ⟨ha.imp (fun h => Nat.ne_of_lt h), hb.imp (fun h => Nat.ne_of_lt h), hdisj⟩
  exact ⟨List.Sorted.lt_of_le hsortedle hnodup, hperm⟩

/-- Concrete instance of the merge sortedness on the parents
`[1,5]` and `[2,3]`. -/
theorem combineRows_opt_sorted_witness :
    List.Sorted (· < ·) (combineRowsOpt [0] [0] [1, 5] [2, 3] 0).2 ∧
    (combineRowsOpt [0] [0] [1, 5] [2, 3] 0).2.Perm ([1, 5] ++ [2, 3]) :=
  combineRows_opt_sorted [0] [0] [1, 5] [2, 3] 0 (by decide) (by decide) (by decide)

/-- basicSolver.c `combineRows` on (strictly ascending, disjoint) parents
with index sets `{1,5}` and `{2,3}` concatenates the whole sub-arrays by
`indicesBefore`, producing the index sequence `1,5,2,3`, which is not
strictly ascending: the claimed sortedness invariant fails for the basic
variant from the second round on. -/
theorem combineRows_basic_unsorted_counterexample :
    List.Sorted (· < ·) [1, 5] ∧ List.Sorted (· < ·) [2, 3] ∧
    (∀ x ∈ [1, 5], x ∉ [2, 3]) ∧
    (combineRowsBasic (List.replicate 6 0) (List.replicate 6 0)
        (EhIndexToArray 1 ++ EhIndexToArray 5)
        (EhIndexToArray 2 ++ EhIndexToArray 3) 1).2 =
      EhIndexToArray 1 ++ EhIndexToArray 5 ++ (EhIndexToArray 2 ++ EhIndexToArray 3) ∧
    ((List.range 4).map fun i =>
        array_to_index (((combineRowsBasic (List.replicate 6 0) (List.replicate 6 0)
          (EhIndexToArray 1 ++ EhIndexToArray 5)
          (EhIndexToArray 2 ++ EhIndexToArray 3) 1).2).drop (4 * i))) = [1, 5, 2, 3] ∧
    ¬ List.Sorted (· < ·) [1, 5, 2, 3] :=
  ⟨by decide, by decide, by decide, by decide, by decide, by decide⟩

/-! ### Evaluating the planted solver run in stages -/

set_option maxRecDepth 4000 in
theorem stage_blocks1 :
    List.foldl (digitZeroBlockM solOracle) initState48 (List.range 13) = stA0 := by decide

set_option maxRecDepth 4000 in
theorem stage_blocks2 :
    List.foldl (digitZeroBlockM solOracle) stA0
      ((List.range 13).map (fun i => 13 + i)) = stA1 := by decide

set_option maxRecDepth 4000 in
theorem stage_blocks3 :
    List.foldl (digitZeroBlockM solOracle) stA1
      ((List.range 13).map (fun i => 26 + i)) = stA2 := by decide

set_option maxRecDepth 4000 in
theorem stage_blocks4 :
    List.foldl (digitZeroBlockM solOracle) stA2
      ((List.range 13).map (fun i => 39 + i)) = stT0 := by decide

theorem stage_digit0 : digitZeroM solOracle initState48 = stT0 := by
  have h52 : List.range 52 = ((List.range 13 ++ (List.range 13).map (fun i => 13 + i)) ++
      (List.range 13).map (fun i => 26 + i)) ++ (List.range 13).map (fun i => 39 + i) := by
    decide
  unfold digitZeroM
  rw [h52, List.foldl_append, List.foldl_append, List.foldl_append,
    stage_blocks1, stage_blocks2, stage_blocks3, stage_blocks4]

set_option maxRecDepth 4000 in
theorem stage_round1 : digitoddM 1 stT0 = stT1 := by decide

set_option maxRecDepth 4000 in
theorem stage_round2 : digitevenM 2 stT1 = stT2 := by decide

set_option maxRecDepth 4000 in
theorem stage_round3 : digitoddM 3 stT2 = stT3 := by decide

set_option maxRecDepth 4000 in
theorem stage_round4 : digitevenM 4 stT3 = stT4 := by decide

set_option maxRecDepth 4000 in
theorem stage_digitk : digitKM stT4 = stT5 := by decide

/-- `worker` on the planted oracle with the always-continue callback:
both solutions are found and the run completes. -/
theorem worker_cb3 : workerM solOracle cb3 [] =
    (stT5, [none, none, none, none, none, none], 1, none) := by
  simp only [workerM, cb3]
  norm_num
  rw [stage_digit0, stage_round1, stage_round2, stage_round3, stage_round4, stage_digitk]

/-- `worker` on the planted oracle with the callback that cancels at the
sixth poll -- the one issued after `digitK`: the worker reports the
cancellation (C return value 0) but the state already holds both
solutions. -/
theorem worker_cancelk : workerM solOracle cbCancelAfterK [] =
    (stT5, [none, none, none, none, none, none], 0, some 6) := by
  simp only [workerM, cbCancelAfterK]
  norm_num
  rw [stage_digit0, stage_round1, stage_round2, stage_round3, stage_round4, stage_digitk]

set_option maxRecDepth 4000 in
theorem solve_cb3 : solveM solOracle cb3 [] =
    ([none, none, none, none, none, none,
      some (GetMinimalFromIndices 8 (List.range 32)),
      some (GetMinimalFromIndices 8 ((List.range 32).map (fun i => 40 + i)))], 2) := by
  simp only [solveM]
  rw [worker_cb3]
  decide

set_option maxRecDepth 4000 in
theorem solve_cancelk : solveM solOracle cbCancelAfterK [] =
    ([none, none, none, none, none, none,
      some (GetMinimalFromIndices 8 (List.range 32)),
      some (GetMinimalFromIndices 8 ((List.range 32).map (fun i => 40 + i)))], 2) := by
  simp only [solveM]
  rw [worker_cancelk]
  decide

/-! ### The digit passes never touch the recorded solutions -/

theorem foldl_sols_nsols {α : Type} (f : EqState → α → EqState)
    (hf : ∀ st x, (f st x).sols = st.sols ∧ (f st x).nsols = st.nsols) :
    ∀ (l : List α) (st : EqState),
      (l.foldl f st).sols = st.sols ∧ (l.foldl f st).nsols = st.nsols := by
  intro l
  induction l with
  | nil => intro st; exact ⟨rfl, rfl⟩
  | cons x xs ih =>
    intro st
    simp only [List.foldl_cons]
    obtain ⟨h1, h2⟩ := hf st x
    obtain ⟨h3, h4⟩ := ih (f st x)
    exact ⟨h3.trans h1, h4.trans h2⟩

theorem digitZeroBlockM_pres (o : Nat → List Nat) (st : EqState) (b : Nat) :
    (digitZeroBlockM o st b).sols = st.sols ∧ (digitZeroBlockM o st b).nsols = st.nsols := by
  unfold digitZeroBlockM
  refine foldl_sols_nsols _ (fun st j => ?_) _ st
  dsimp only
  split
  · exact ⟨rfl, rfl⟩
  · exact ⟨rfl, rfl⟩

theorem digitoddBucketM_pres (r : Nat) (st : EqState) (b : Nat) :
    (digitoddBucketM r st b).sols = st.sols ∧ (digitoddBucketM r st b).nsols = st.nsols := by
  unfold digitoddBucketM
  dsimp only
  refine foldl_sols_nsols _ (fun st1 s1 => ?_) _ _
  refine foldl_sols_nsols _ (fun st2 s0 => ?_) _ _
  dsimp only
  split
  · exact ⟨rfl, rfl⟩
  · split
    · exact ⟨rfl, rfl⟩
    · exact ⟨rfl, rfl⟩

theorem digitevenBucketM_pres (r : Nat) (st : EqState) (b : Nat) :
    (digitevenBucketM r st b).sols = st.sols ∧ (digitevenBucketM r st b).nsols = st.nsols := by
  unfold digitevenBucketM
  dsimp only
  refine foldl_sols_nsols _ (fun st1 s1 => ?_) _ _
  refine foldl_sols_nsols _ (fun st2 s0 => ?_) _ _
  dsimp only
  split
  · exact ⟨rfl, rfl⟩
  · split
    · exact ⟨rfl, rfl⟩
    · exact ⟨rfl, rfl⟩

theorem digitZeroM_nsols (o : Nat → List Nat) (st : EqState) :
    (digitZeroM o st).nsols = st.nsols := by
  unfold digitZeroM
  exact (foldl_sols_nsols _ (digitZeroBlockM_pres o) _ st).2

theorem digitoddM_nsols (r : Nat) (st : EqState) :
    (digitoddM r st).nsols = st.nsols := by
  unfold digitoddM
  exact (foldl_sols_nsols _ (digitoddBucketM_pres r) _ st).2

theorem digitevenM_nsols (r : Nat) (st : EqState) :
    (digitevenM r st).nsols = st.nsols := by
  unfold digitevenM
  exact (foldl_sols_nsols _ (digitevenBucketM_pres r) _ st).2

/-- C6: the emission loop of `solve` stops only on callback results 1
(solve returns 1) and 2 (solve returns 0); every other result, zero or
not, continues with the next recorded solution, and an exhausted loop
falls through to returning the solution count. -/
theorem solve_emission_codes {σ : Type} (cb : σ → Option (List Nat) → σ × Int)
    (nsols : Nat) (s : σ) (sol : List Nat) (rest : List (List Nat)) :
    (emitLoop cb nsols s [] = (s, Int.ofNat nsols)) ∧
    ((cb s (some (GetMinimalFromIndices 8 sol))).2 = 1 →
      emitLoop cb nsols s (sol :: rest) =
        ((cb s (some (GetMinimalFromIndices 8 sol))).1, 1)) ∧
    ((cb s (some (GetMinimalFromIndices 8 sol))).2 = 2 →
      emitLoop cb nsols s (sol :: rest) =
        ((cb s (some (GetMinimalFromIndices 8 sol))).1, 0)) ∧
    ((cb s (some (GetMinimalFromIndices 8 sol))).2 ≠ 1 →
      (cb s (some (GetMinimalFromIndices 8 sol))).2 ≠ 2 →
      emitLoop cb nsols s (sol :: rest) =
        emitLoop cb nsols (cb s (some (GetMinimalFromIndices 8 sol))).1 rest) := by
  refine ⟨rfl, fun h1 => ?_, fun h2 => ?_, fun hn1 hn2 => ?_⟩
  · simp only [emitLoop]
    rw [if_pos h1]
  · have hne : (cb s (some (GetMinimalFromIndices 8 sol))).2 ≠ 1 := by
      rw [h2]; decide
    simp only [emitLoop]
    rw [if_neg hne, if_pos h2]
  · simp only [emitLoop]
    rw [if_neg hn1, if_neg hn2]

/-- C6 counterexample: on the planted (48,5) run, the recording callback
answers the first delivered solution with the non-zero result 3, yet the
solver does not stop: the second solution is still delivered and `solve`
returns the solution count 2. -/
theorem solve_nonzero_cb_continues_counterexample :
    (cb3 [none, none, none, none, none, none]
      (some (GetMinimalFromIndices 8 (List.range 32)))).2 = 3 ∧
    solveM solOracle cb3 [] =
      ([none, none, none, none, none, none,
        some (GetMinimalFromIndices 8 (List.range 32)),
        some (GetMinimalFromIndices 8 ((List.range 32).map (fun i => 40 + i)))], 2) :=
  ⟨rfl, solve_cb3⟩

/-- C7: a non-zero reply to any of the five cancellation polls issued
before `digitK` does make the run discard its partial results: no
solution has been recorded at that point, so `solve` returns 0 and the
callback is never invoked with a solution. -/
theorem worker_cancel_before_final {σ : Type} (oracle : Nat → List Nat)
    (cb : σ → Option (List Nat) → σ × Int) (s : σ) (k : Nat)
    (hk : (workerM oracle cb s).2.2.2 = some k) (hk5 : k ≤ 5) :
    (workerM oracle cb s).1.nsols = 0 ∧
    solveM oracle cb s = ((workerM oracle cb s).2.1, 0) := by
  have hns : (workerM oracle cb s).1.nsols = 0 := by
    simp only [workerM] at hk ⊢
    by_cases h1 : (cb s none).2 ≠ 0
    · rw [if_pos h1]
      show (digitZeroM oracle initState48).nsols = 0
      rw [digitZeroM_nsols]
      rfl
    · rw [if_neg h1] at hk ⊢
      by_cases h2 : (cb (cb s none).1 none).2 ≠ 0
      · rw [if_pos h2]
        show (digitoddM 1 (digitZeroM oracle initState48)).nsols = 0
        rw [digitoddM_nsols, digitZeroM_nsols]
        rfl
      · rw [if_neg h2] at hk ⊢
        by_cases h3 : (cb (cb (cb s none).1 none).1 none).2 ≠ 0
        · rw [if_pos h3]
          show (digitevenM 2 (digitoddM 1 (digitZeroM oracle initState48))).nsols = 0
          rw [digitevenM_nsols, digitoddM_nsols, digitZeroM_nsols]
          rfl
        · rw [if_neg h3] at hk ⊢
          by_cases h4 : (cb (cb (cb (cb s none).1 none).1 none).1 none).2 ≠ 0
          · rw [if_pos h4]
            show (digitoddM 3 (digitevenM 2 (digitoddM 1
              (digitZeroM oracle initState48)))).nsols = 0
            rw [digitoddM_nsols, digitevenM_nsols, digitoddM_nsols, digitZeroM_nsols]
            rfl
          · rw [if_neg h4] at hk ⊢
            by_cases h5 : (cb (cb (cb (cb (cb s none).1 none).1 none).1 none).1 none).2 ≠ 0
            · rw [if_pos h5]
              show (digitevenM 4 (digitoddM 3 (digitevenM 2 (digitoddM 1
                (digitZeroM oracle initState48))))).nsols = 0
              rw [digitevenM_nsols, digitoddM_nsols, digitevenM_nsols,
                digitoddM_nsols, digitZeroM_nsols]
              rfl
            · rw [if_neg h5] at hk
              by_cases h6 :
                  (cb (cb (cb (cb (cb (cb s none).1 none).1 none).1 none).1 none).1 none).2 ≠ 0
              · rw [if_pos h6] at hk
                simp only [Option.some.injEq] at hk
                omega
              · rw [if_neg h6] at hk
                simp at hk
  refine ⟨hns, ?_⟩
  simp only [solveM]
  rw [hns]
  simp only [Nat.min_zero, List.take_zero, emitLoop]
  rfl

/-- C7 witness: a callback that cancels at the very first poll. -/
theorem worker_cancel_before_final_witness :
    ((workerM (fun _ => []) (fun (s : Unit) _ => (s, (1 : Int))) ()).2.2.2 = some 1 ∧
      1 ≤ 5) ∧
    ((workerM (fun _ => []) (fun (s : Unit) _ => (s, (1 : Int))) ()).1.nsols = 0 ∧
      solveM (fun _ => []) (fun (s : Unit) _ => (s, (1 : Int))) () =
        ((workerM (fun _ => []) (fun (s : Unit) _ => (s, (1 : Int))) ()).2.1, 0)) :=
  ⟨⟨rfl, by decide⟩,
    worker_cancel_before_final (fun _ => []) (fun s _ => (s, 1)) () 1 rfl (by decide)⟩

/-- C7 counterexample: on the planted (48,5) run, the poll issued after
the final round (`digitK`) returns the non-zero value 1, yet the partial
results are not discarded -- the callback is subsequently invoked with
both recorded solutions and `solve` returns 2. -/
theorem worker_final_poll_ignored_counterexample :
    (cbCancelAfterK [none, none, none, none, none] none).2 = 1 ∧
    (workerM solOracle cbCancelAfterK []).2.2.2 = some 6 ∧
    solveM solOracle cbCancelAfterK [] =
      ([none, none, none, none, none, none,
        some (GetMinimalFromIndices 8 (List.range 32)),
        some (GetMinimalFromIndices 8 ((List.range 32).map (fun i => 40 + i)))], 2) := by
  refine ⟨rfl, ?_, solve_cancelk⟩
  rw [worker_cancelk]

/-- C1: `verify` rejects any header longer than `HEADERNONCELEN = 180`
bytes outright with `POW_INVALID_HEADER_LENGTH`, before looking at the
proof; hence no proof can be accepted for such a header, even though
`solve` itself imposes no length guard on the header it mines. -/
theorem verify_rejects_long_header (WN WK : Nat) (oracle : Nat → List Nat)
    (indices : List Nat) (proofsize : Nat) :
    verifyM WN WK oracle indices proofsize 181 = POW_INVALID_HEADER_LENGTH ∧
    verifyM WN WK oracle indices proofsize 181 ≠ POW_OK := by
  have h : HEADERNONCELEN < 181 := by decide
  have hv : verifyM WN WK oracle indices proofsize 181 = POW_INVALID_HEADER_LENGTH := by
    unfold verifyM
    rw [if_pos h]
  exact ⟨hv, by rw [hv]; decide⟩
